import Mathlib

/-!
Verification of the thanks-stars core

Shallow embedding of the core of the `thanks-stars` repository:

* the repository identity parser (`src/discovery.rs`:
  `parse_github_repository`, `parse_owner_repo`, `build_repository`),
* the discovery dispatcher (`discover_for_frameworks`),
* the deduplication + star-reconciliation engine
  (`run_with_frameworks_and_handler` in `src/lib.rs`),
* the dry-run wrapper (`MaybeDryRunClient` in `src/main.rs`),
* the star HTTP status handling (`GitHubClient::star` in `src/github.rs`).

Rust `&str` values handled by the parser are embedded as `List Char`
(so that splitting/trimming admits structural induction); `String` fields
of produced records use `String.mk` of the corresponding char list.
-/

namespace ThanksStars

/-- `Repository` from `src/discovery.rs` (owner, name, canonical url,
optional provenance label `via`). -/
structure Repository where
  owner : String
  name : String
  url : String
  via : Option String
deriving DecidableEq, Repr

/-- `Framework` enum from `src/discovery.rs`. -/
inductive Framework where
  | Node | Deno | Cargo | Go | Dart | Composer
  | Ruby | Python | Gradle | Maven | Renv | Haskell
deriving DecidableEq, Repr

/-- `DiscoveryError` from `src/discovery.rs`: one variant per ecosystem,
each wrapping that ecosystem's own error (embedded as its rendered
message, which the core never inspects). -/
inductive DiscoveryError where
  | Node (msg : String) | Deno (msg : String) | Cargo (msg : String)
  | Go (msg : String) | Dart (msg : String) | Composer (msg : String)
  | Ruby (msg : String) | Python (msg : String) | Gradle (msg : String)
  | Maven (msg : String) | Renv (msg : String) | Haskell (msg : String)
deriving DecidableEq, Repr

/-- `GitHubError` from `src/github.rs`. -/
inductive GitHubError where
  | clientBuild (msg : String)
  | api (status : Nat) (body : String)
deriving DecidableEq, Repr

/-- `RunError` from `src/lib.rs`. -/
inductive RunError where
  | discovery (e : DiscoveryError)
  | github (e : GitHubError)
  | noFrameworks (root : String)
deriving DecidableEq, Repr

/-- Rust `str::trim` (drop whitespace at both ends). -/
def trimChars (cs : List Char) : List Char :=
  ((cs.dropWhile Char.isWhitespace).reverse.dropWhile Char.isWhitespace).reverse

/-- Rust `str::trim_matches('/')` (drop `'/'` at both ends). -/
def trimSlashes (cs : List Char) : List Char :=
  ((cs.dropWhile (fun c => c = '/')).reverse.dropWhile (fun c => c = '/')).reverse

/-- Rust `str::strip_prefix`: `some rest` when the pattern leads, else `none`. -/
def stripPre : List Char → List Char → Option (List Char)
  | [], cs => some cs
  | _ :: _, [] => none
  | p :: ps, c :: cs => if p = c then stripPre ps cs else none

/-- Rust `str::split('/')` (always at least one part; empty parts kept). -/
def splitOnSlash : List Char → List (List Char)
  | [] => [[]]
  | c :: cs =>
    if c = '/' then [] :: splitOnSlash cs
    else
      match splitOnSlash cs with
      | [] => [[c]]
      | s :: ss => (c :: s) :: ss

/-- Whether `cs` ends with `".git"`. -/
def endsWithDotGit (cs : List Char) : Bool :=
  cs.reverse.take 4 = ['t', 'i', 'g', '.']

/-- Fuel-based worker for `trimEndGit`; each strip removes four
characters, so `cs.length` rounds of fuel always suffice. -/
def trimEndGitAux : Nat → List Char → List Char
  | 0, cs => cs
  | fuel + 1, cs =>
    if endsWithDotGit cs then trimEndGitAux fuel (cs.take (cs.length - 4))
    else cs

/-- Rust `str::trim_end_matches(".git")`: repeatedly remove a trailing
`".git"`. -/
def trimEndGit (cs : List Char) : List Char :=
  trimEndGitAux cs.length cs

/-- A parsed URL, as modelled from the third-party `url` crate
(WHATWG URL parser) that `parse_github_repository` delegates to:
scheme, optional host, optional path segments (`none` encodes a
cannot-be-a-base URL, as for `Url::path_segments`).  The model
`urlParse` below reproduces the crate's behaviour on the input shapes
the parser claims exercise: an absolute URL needs a valid scheme
(leading ASCII letter, then letters/digits/`+`/`-`/`.`) before the
first `:`; with `"//"` the authority runs to the next `/`, userinfo
before the last `@` is dropped, a `:port` is dropped, and hosts are
ASCII-lowercased (so already-lowercase hosts are preserved); the path
after the authority is split on `/` for `Url::path_segments`.  Without
`"//"` the URL is cannot-be-a-base: no host, no path segments (inputs
with a special scheme and no slashes do not occur in the claims below).
Strings without a valid scheme fail to parse
(`RelativeUrlWithoutBase`), as in the crate. -/
structure ParsedUrl where
  scheme : List Char
  host : Option (List Char)
  pathSegments : Option (List (List Char))
deriving DecidableEq, Repr

/-- Valid WHATWG scheme: nonempty, leading ASCII alpha, then
alphanumerics / `+` / `-` / `.`. -/
def validScheme (cs : List Char) : Bool :=
  match cs with
  | [] => false
  | c :: _ => c.isAlpha && cs.all (fun d => d.isAlphanum || d = '+' || d = '-' || d = '.')

/-- Split at the first `:` — `some (before, after)` — or `none` if absent. -/
def splitFirstColon (cs : List Char) : Option (List Char × List Char) :=
  let pre := cs.takeWhile (fun c => c ≠ ':')
  if pre.length = cs.length then none
  else some (pre, cs.drop (pre.length + 1))

/-- Authority after the last `@` (drops userinfo). -/
def afterLastAt (cs : List Char) : List Char :=
  (cs.reverse.takeWhile (fun c => c ≠ '@')).reverse

/-- Model of `url::Url::parse`; see the `ParsedUrl` doc comment for
the modelled restrictions. -/
def urlParse (input : List Char) : Option ParsedUrl :=
  match splitFirstColon input with
  | none => none
  | some (schemeRaw, rest) =>
    if validScheme schemeRaw then
      let scheme := schemeRaw.map Char.toLower
      match stripPre ['/', '/'] rest with
      | some afterSlashes =>
        let authority := afterSlashes.takeWhile (fun c => c ≠ '/' && c ≠ '?' && c ≠ '#')
        let path := afterSlashes.drop authority.length
        let host := ((afterLastAt authority).takeWhile (fun c => c ≠ ':')).map Char.toLower
        let segments : List (List Char) :=
          match path with
          | [] => [[]]
          | _ :: tail => splitOnSlash tail
        some { scheme := scheme, host := some host, pathSegments := some segments }
      | none =>
        some { scheme := scheme, host := none, pathSegments := none }
    else none

/-- `build_repository` from `src/discovery.rs`: strip a trailing `.git`
from the name, reject empty owner/name, build the canonical URL. -/
def build_repository (owner repo : List Char) : Option Repository :=
  let repo := trimEndGit repo
  if repo.isEmpty || owner.isEmpty then none
  else
    some { owner := String.mk owner
           name := String.mk repo
           url := String.mk ("https://github.com/".toList ++ owner ++ '/' :: repo)
           via := none }

/-- `parse_owner_repo` from `src/discovery.rs`: trim `/` at both ends,
split on `/`, require exactly two parts, trim each, reject empties. -/
def parse_owner_repo (input : List Char) : Option Repository :=
  match splitOnSlash (trimSlashes input) with
  | owner :: repo :: rest =>
    let owner := trimChars owner
    let repo := trimChars repo
    if owner.isEmpty || repo.isEmpty then none
    else if rest ≠ [] then none
    else build_repository owner repo
  | _ => none

/-- Continuation of `parse_github_repository` after the URL / shorthand
branches: the trailing `git@github.com:` check, else no match. -/
def parseSshFallback (trimmed : List Char) : Option Repository :=
  match stripPre "git@github.com:".toList trimmed with
  | some rest => parse_owner_repo rest
  | none => none

/-- `parse_github_repository` from `src/discovery.rs`, branch for branch:
trim; empty → none; `github:` prefix → shorthand on trimmed rest;
strip `git+`; if the remainder parses as a URL: reject `file` scheme,
accept host `github.com` taking the first two non-empty path segments
(too few segments → none, via the `?` early returns); if it is not a
URL, try `owner/repo` shorthand; finally the `git@github.com:` check. -/
def parse_github_repository (input : List Char) : Option Repository :=
  let trimmed := trimChars input
  if trimmed.isEmpty then none
  else
    match stripPre "github:".toList trimmed with
    | some rest => parse_owner_repo (trimChars rest)
    | none =>
      let without_git := (stripPre "git+".toList trimmed).getD trimmed
      match urlParse without_git with
      | some url =>
        if url.scheme = "file".toList then none
        else if url.host = some "github.com".toList then
          match url.pathSegments with
          | some segs =>
            match segs.filter (fun s => !s.isEmpty) with
            | owner :: repo :: _ => build_repository owner repo
            | _ => none
          | none => parseSshFallback trimmed
        else parseSshFallback trimmed
      | none =>
        match parse_owner_repo without_git with
        | some repo => some repo
        | none => parseSshFallback trimmed

/-- `StarredRepository` from `src/lib.rs`. -/
structure StarredRepository where
  repository : Repository
  already_starred : Bool
deriving DecidableEq, Repr

/-- `RunSummary` from `src/lib.rs`. -/
structure RunSummary where
  starred : List StarredRepository
deriving DecidableEq, Repr

/-- The `(owner, name)` identity key used by the dedup loop in
`run_with_frameworks_and_handler`. -/
def repoKey (r : Repository) : String × String :=
  (r.owner, r.name)

/-- The dedup loop of `run_with_frameworks_and_handler`
(`src/lib.rs` lines 99–105), with the `HashSet` of seen keys made an
explicit accumulator: keep a repository iff its `(owner, name)` key was
not seen before. -/
def dedupGo (seen : List (String × String)) : List Repository → List Repository
  | [] => []
  | r :: rest =>
    if repoKey r ∈ seen then dedupGo seen rest
    else r :: dedupGo (repoKey r :: seen) rest

/-- Deduplication by `(owner, name)` in first-seen order. -/
def dedup (repos : List Repository) : List Repository :=
  dedupGo [] repos

/-- One call issued to a `GitHubApi` value (`viewer_has_starred` query
or `star` mutation), recorded in order of issue. -/
inductive ApiCall where
  | viewer (owner name : String)
  | star (owner name : String)
deriving DecidableEq, Repr

/-- One `RunEventHandler` notification (`src/lib.rs`), recorded in order
of emission. -/
inductive Event where
  | start (total : Nat)
  | starred (repo : Repository) (already_starred : Bool) (index total : Nat)
  | complete (summary : RunSummary)
deriving DecidableEq, Repr

/-- The `GitHubApi` trait (`src/github.rs`) embedded as a state machine
over an abstract remote state `σ`: both methods may fail with a
`GitHubError` and may evolve the state. -/
structure Api (σ : Type) where
  viewer_has_starred : σ → String → String → Except GitHubError (Bool × σ)
  star : σ → String → String → Except GitHubError σ

/-- Prepend a processed repository to a successful tail result
(the `starred.push(...)` of the loop, read off a cons-structured
recursion); errors pass through, dropping the records (`starred` is
dropped when the run aborts — no partial summary). -/
def consResult {σ : Type} (repo : Repository) (already : Bool) :
    Except GitHubError (List StarredRepository × σ) →
      Except GitHubError (List StarredRepository × σ)
  | Except.error e => Except.error e
  | Except.ok (l, s) =>
      Except.ok ({ repository := repo, already_starred := already } :: l, s)

/-- The per-repository loop of `run_with_frameworks_and_handler`
(`src/lib.rs` lines 111–121): for each repository in order, query
`viewer_has_starred` (abort on error), call `star` iff not already
starred (abort on error), emit `on_starred` with the 1-based index, and
record the entry.  Returns the API-call trace, the event trace, and
either the record list with the final remote state or the first error.
`idx` is the 1-based index of the first repository of the list. -/
def processRepos {σ : Type} (api : Api σ) (total : Nat) :
    List Repository → Nat → σ →
      List ApiCall × List Event × Except GitHubError (List StarredRepository × σ)
  | [], _, s => ([], [], Except.ok ([], s))
  | repo :: rest, idx, s =>
    match api.viewer_has_starred s repo.owner repo.name with
    | Except.error e => ([ApiCall.viewer repo.owner repo.name], [], Except.error e)
    | Except.ok (already, s1) =>
      if already then
        let r := processRepos api total rest (idx + 1) s1
        (ApiCall.viewer repo.owner repo.name :: r.1,
         Event.starred repo true idx total :: r.2.1,
         consResult repo true r.2.2)
      else
        match api.star s1 repo.owner repo.name with
        | Except.error e =>
          ([ApiCall.viewer repo.owner repo.name, ApiCall.star repo.owner repo.name],
           [], Except.error e)
        | Except.ok s2 =>
          let r := processRepos api total rest (idx + 1) s2
          (ApiCall.viewer repo.owner repo.name :: ApiCall.star repo.owner repo.name :: r.1,
           Event.starred repo false idx total :: r.2.1,
           consResult repo false r.2.2)

/-- `run_with_frameworks_and_handler` (`src/lib.rs` lines 91–127) after
framework detection, with the discovery phase's result passed in as an
`Except` (the dispatcher is modelled separately): on discovery error
return it at once — no API call, no event; otherwise dedup, emit
`on_start` with the unique count, run the loop, and on success emit
`on_complete` with the summary. -/
def runModel {σ : Type} (disc : Except DiscoveryError (List Repository))
    (api : Api σ) (s : σ) :
    List ApiCall × List Event × Except RunError (RunSummary × σ) :=
  match disc with
  | Except.error e => ([], [], Except.error (RunError.discovery e))
  | Except.ok repos =>
    let unique := dedup repos
    let total := unique.length
    match processRepos api total unique 1 s with
    | (calls, evs, Except.error e) =>
      (calls, Event.start total :: evs, Except.error (RunError.github e))
    | (calls, evs, Except.ok (starred, sF)) =>
      let summary : RunSummary := { starred := starred }
      (calls, Event.start total :: evs ++ [Event.complete summary],
       Except.ok (summary, sF))

/-- Remote starred-state: the set of starred `(owner, name)` pairs. -/
abbrev StarState := List (String × String)

/-- The honest GitHub remote: `viewer_has_starred` reports membership in
the starred set, `star` adds the pair — each successful `star` makes
`viewer_has_starred` subsequently return `true` (this is the semantics
the mock `GitHubApi` in the `src/lib.rs` tests implements). -/
def honestApi : Api StarState where
  viewer_has_starred := fun s o n => Except.ok (decide ((o, n) ∈ s), s)
  star := fun s o n => Except.ok ((o, n) :: s)

/-- Instrument an API so the state also logs every call that actually
reaches the underlying API (used to observe what a wrapper forwards). -/
def traced {σ : Type} (inner : Api σ) : Api (σ × List ApiCall) where
  viewer_has_starred := fun p o n =>
    match inner.viewer_has_starred p.1 o n with
    | Except.error e => Except.error e
    | Except.ok (b, s1) => Except.ok (b, (s1, p.2 ++ [ApiCall.viewer o n]))
  star := fun p o n =>
    match inner.star p.1 o n with
    | Except.error e => Except.error e
    | Except.ok s1 => Except.ok (s1, p.2 ++ [ApiCall.star o n])

/-- `MaybeDryRunClient` from `src/main.rs` (lines 339–351):
`viewer_has_starred` always delegates; `star` succeeds without touching
the inner API when `dry_run` is set, else delegates. -/
def maybeDryRun {σ : Type} (inner : Api σ) (dry_run : Bool) : Api σ where
  viewer_has_starred := inner.viewer_has_starred
  star := fun s o n => if dry_run then Except.ok s else inner.star s o n

/-- `reqwest::StatusCode::is_success`: the 2xx range. -/
def statusIsSuccess (status : Nat) : Bool :=
  200 ≤ status && status ≤ 299

/-- The response handling of `GitHubClient::star` (`src/github.rs`
lines 119–125), as a function of the HTTP response's status and body:
2xx or 304 is `Ok(())`, anything else is `Err(GitHubError::Api)`
carrying the status and body. -/
def starResponse (status : Nat) (body : String) : Except GitHubError Unit :=
  if statusIsSuccess status || status == 304 then Except.ok ()
  else Except.error (GitHubError.api status body)

/-- The spawned discovery tasks' results, each tagged with its spawn
index (`scope.spawn(move || ... Ok((index, repositories)))` in
`discover_for_frameworks`). -/
def spawnResults (disc : Framework → Except DiscoveryError (List Repository))
    (frameworks : List Framework) :
    List (Except DiscoveryError (Nat × List Repository)) :=
  frameworks.enum.map fun p => (disc p.2).map fun rs => (p.1, rs)

/-- The join loop: `handle.join()...?` in spawn order — the first error
in list order aborts. -/
def joinAll {E α : Type} : List (Except E α) → Except E (List α)
  | [] => Except.ok []
  | Except.error e :: _ => Except.error e
  | Except.ok a :: xs => (joinAll xs).map fun l => a :: l

/-- `ordered[index] = Some(repos)` writes: fill a `replicate n none`
slot array from the delivered pairs. -/
def fillOrdered (n : Nat) (pairs : List (Nat × List Repository)) :
    List (Option (List Repository)) :=
  pairs.foldl (fun arr p => arr.set p.1 (some p.2)) (List.replicate n none)

/-- `discover_for_frameworks` (`src/discovery.rs` lines 166–199):
zero frameworks → `Ok(vec![])` with no discoverer run; one framework →
that discoverer's result inline; several → concurrent tasks, join in
spawn order propagating the first error, then flatten the `ordered`
slots in index order.  `arrival` is the completion order of the tasks
(any permutation of `0..n`): delivered pairs are read in that order. -/
def discover_for_frameworks
    (disc : Framework → Except DiscoveryError (List Repository))
    (frameworks : List Framework) (arrival : List Nat) :
    Except DiscoveryError (List Repository) :=
  match frameworks with
  | [] => Except.ok []
  | [f] => disc f
  | _ =>
    match joinAll (spawnResults disc frameworks) with
    | Except.error e => Except.error e
    | Except.ok pairs =>
      let delivered := arrival.filterMap fun j => pairs[j]?
      let ordered := fillOrdered frameworks.length delivered
      Except.ok ((ordered.filterMap id).flatten)

/-- The `(owner, name)` pair an API call is about. -/
def callKey : ApiCall → String × String
  | ApiCall.viewer o n => (o, n)
  | ApiCall.star o n => (o, n)

/-- Whether an API call is a `star` mutation. -/
def isStarCall : ApiCall → Bool
  | ApiCall.viewer _ _ => false
  | ApiCall.star _ _ => true

/-- The `viewer_has_starred` queries of a call trace, in order. -/
def queryCalls : List ApiCall → List (String × String)
  | [] => []
  | ApiCall.viewer o n :: cs => (o, n) :: queryCalls cs
  | ApiCall.star _ _ :: cs => queryCalls cs

/-- The `on_starred` event sequence the loop emits for a record list,
starting at 1-based index `idx` with total `total`. -/
def protocolEvents (l : List StarredRepository) (idx total : Nat) : List Event :=
  match l with
  | [] => []
  | e :: rest =>
    Event.starred e.repository e.already_starred idx total ::
      protocolEvents rest (idx + 1) total

/-- Whether an event is an `on_starred` notification. -/
def isStarredEvent : Event → Bool
  | Event.starred _ _ _ _ => true
  | _ => false

/-- Whether an event is an `on_complete` notification. -/
def isCompleteEvent : Event → Bool
  | Event.complete _ => true
  | _ => false

/-- Concrete repositories used by the witness theorems below. -/
def rA : Repository := { owner := "a", name := "x", url := "https://github.com/a/x", via := none }

def rB : Repository := { owner := "b", name := "y", url := "https://github.com/b/y", via := some "Cargo.toml" }

def rA2 : Repository := { owner := "a", name := "x", url := "https://github.com/a/x", via := some "package.json" }

/-- Closed form of the reconciliation loop against `honestApi`:
call trace, event trace, record list and final starred-state. -/
def honestRun (total : Nat) : List Repository → Nat → StarState →
    List ApiCall × List Event × List StarredRepository × StarState
  | [], _, s => ([], [], [], s)
  | r :: rest, idx, s =>
    if (r.owner, r.name) ∈ s then
      let p := honestRun total rest (idx + 1) s
      (ApiCall.viewer r.owner r.name :: p.1,
       Event.starred r true idx total :: p.2.1,
       ⟨r, true⟩ :: p.2.2.1, p.2.2.2)
    else
      let p := honestRun total rest (idx + 1) ((r.owner, r.name) :: s)
      (ApiCall.viewer r.owner r.name :: ApiCall.star r.owner r.name :: p.1,
       Event.starred r false idx total :: p.2.1,
       ⟨r, false⟩ :: p.2.2.1, p.2.2.2)

/-- An API whose `viewer_has_starred` always fails: used to witness the
fail-fast behaviour. -/
def failingApi : Api Unit where
  viewer_has_starred := fun _ _ _ => Except.error (GitHubError.api 500 "boom")
  star := fun s _ _ => Except.ok s

/-- Discoverer oracle used by the C5 witness: Node yields `[rA]`,
Cargo yields `[rB]`. -/
def discAB : Framework → Except DiscoveryError (List Repository)
  | Framework.Node => Except.ok [rA]
  | Framework.Cargo => Except.ok [rB]
  | _ => Except.ok []

/-- Discoverer oracle used by the C10 witness: Cargo succeeds, Node
fails. -/
def discErr : Framework → Except DiscoveryError (List Repository)
  | Framework.Node => Except.error (DiscoveryError.Node "read failed")
  | Framework.Cargo => Except.ok [rB]
  | _ => Except.ok []

/-- Identifier-class character for the parser-rejection claims: ASCII
letter, digit, `-` or `_`.  The rejection claims quantify over
owner/repo/host strings; they are proved for segments over explicit
character classes that exclude the structural characters `/ : @ ? # +`
and whitespace, which is what makes the templates parse the way the
concrete inputs in the spec do. -/
def segChar (c : Char) : Bool :=
  (97 ≤ c.toNat && c.toNat ≤ 122) || (65 ≤ c.toNat && c.toNat ≤ 90) ||
    (48 ≤ c.toNat && c.toNat ≤ 57) || c = '-' || c = '_'

/-- Host-class character: lowercase ASCII letter, digit, `-` or `.`. -/
def hostChar (c : Char) : Bool :=
  (97 ≤ c.toNat && c.toNat ≤ 122) || (48 ≤ c.toNat && c.toNat ≤ 57) ||
    c = '-' || c = '.'

/-- A non-empty identifier-class segment. -/
def SimpleSeg (l : List Char) : Prop := l ≠ [] ∧ ∀ c ∈ l, segChar c = true

/-- A non-empty host-class string. -/
def HostStr (l : List Char) : Prop := l ≠ [] ∧ ∀ c ∈ l, hostChar c = true



theorem endsWithDotGit_length {cs : List Char} (h : endsWithDotGit cs = true) :
    4 ≤ cs.length := by
  unfold endsWithDotGit at h
  have hlen : (cs.reverse.take 4).length = min 4 cs.reverse.length := by
    simp [List.length_take]
  rw [of_decide_eq_true h] at hlen
  simp at hlen
  omega

example :
    parse_github_repository "https://github.com/owner/repo".toList =
      some { owner := "owner", name := "repo",
             url := "https://github.com/owner/repo", via := none } := by
  decide

example :
    parse_github_repository "git+https://github.com/owner/repo.git".toList =
      some { owner := "owner", name := "repo",
             url := "https://github.com/owner/repo", via := none } := by
  decide

example :
    parse_github_repository "github:owner/repo".toList =
      some { owner := "owner", name := "repo",
             url := "https://github.com/owner/repo", via := none } := by
  decide

example :
    parse_github_repository "owner/repo".toList =
      some { owner := "owner", name := "repo",
             url := "https://github.com/owner/repo", via := none } := by
  decide

example :
    parse_github_repository "git@github.com:owner/repo.git".toList =
      some { owner := "git@github.com:owner", name := "repo",
             url := "https://github.com/git@github.com:owner/repo", via := none } := by
  decide

example : parse_github_repository "https://example.com/owner/repo".toList = none := by
  decide

example : dedup [rA, rB, rA2] = [rA, rB] := by decide

example : dedup (dedup [rA, rB, rA2]) = dedup [rA, rB, rA2] := by decide

example :
    runModel (Except.ok [rA, rB, rA2]) honestApi [("b", "y")] =
      ([ApiCall.viewer "a" "x", ApiCall.star "a" "x", ApiCall.viewer "b" "y"],
       [Event.start 2,
        Event.starred rA false 1 2, Event.starred rB true 2 2,
        Event.complete { starred := [⟨rA, false⟩, ⟨rB, true⟩] }],
       Except.ok ({ starred := [⟨rA, false⟩, ⟨rB, true⟩] },
         [("a", "x"), ("b", "y")])) := by
  rfl

/-- Claim C9: `GitHubClient::star` returns `Ok(())` exactly when the
HTTP response status is a success status (2xx) or 304; for every other
status it returns `GitHubError::Api` carrying that status and the
response body. -/
theorem star_status_handling (status : Nat) (body : String) :
    (starResponse status body = Except.ok () ↔
      ((200 ≤ status ∧ status ≤ 299) ∨ status = 304)) ∧
    (starResponse status body = Except.error (GitHubError.api status body) ↔
      ¬ ((200 ≤ status ∧ status ≤ 299) ∨ status = 304)) := by
  unfold starResponse statusIsSuccess
  have key : (decide (200 ≤ status) && decide (status ≤ 299) || status == 304) = true ↔
      ((200 ≤ status ∧ status ≤ 299) ∨ status = 304) := by
    simp [Bool.or_eq_true, Bool.and_eq_true]
  by_cases h : (200 ≤ status ∧ status ≤ 299) ∨ status = 304
  · rw [if_pos (key.mpr h)]
    simp [h]
  · rw [if_neg (fun hc => h (key.mp hc))]
    simp [h]

/-- Witness for C9 at concrete statuses: 204 and 304 succeed, 404 fails
with the status and body. -/
theorem star_status_handling_witness :
    (starResponse 204 "" = Except.ok () ↔
      ((200 ≤ 204 ∧ 204 ≤ 299) ∨ 204 = 304)) ∧
    (starResponse 404 "Not Found" =
        Except.error (GitHubError.api 404 "Not Found") ↔
      ¬ ((200 ≤ 404 ∧ 404 ≤ 299) ∨ 404 = 304)) :=
  ⟨(star_status_handling 204 "").1, (star_status_handling 404 "Not Found").2⟩

/-! ## C6 — deduplication -/

theorem dedupGo_mem {seen : List (String × String)} {xs : List Repository}
    {r : Repository} (h : r ∈ dedupGo seen xs) : r ∈ xs ∧ repoKey r ∉ seen := by
  induction xs generalizing seen with
  | nil => simp [dedupGo] at h
  | cons x rest ih =>
    by_cases hx : repoKey x ∈ seen
    · simp only [dedupGo, if_pos hx] at h
      obtain ⟨h1, h2⟩ := ih h
      exact ⟨List.mem_cons_of_mem _ h1, h2⟩
    · simp only [dedupGo, if_neg hx] at h
      rcases List.mem_cons.mp h with rfl | h
      · exact ⟨List.mem_cons_self _ _, hx⟩
      · obtain ⟨h1, h2⟩ := ih h
        have h2' : repoKey r ∉ seen := fun hc => h2 (List.mem_cons_of_mem _ hc)
        exact ⟨List.mem_cons_of_mem _ h1, h2'⟩

theorem dedupGo_keys (seen : List (String × String)) (xs : List Repository) :
    ((dedupGo seen xs).map repoKey).Nodup ∧
      ∀ k ∈ (dedupGo seen xs).map repoKey, k ∉ seen := by
  induction xs generalizing seen with
  | nil => simp [dedupGo]
  | cons x rest ih =>
    by_cases hx : repoKey x ∈ seen
    · simpa only [dedupGo, if_pos hx] using ih seen
    · simp only [dedupGo, if_neg hx, List.map_cons]
      obtain ⟨hnd, hdisj⟩ := ih (repoKey x :: seen)
      constructor
      · refine List.nodup_cons.mpr ⟨fun hc => ?_, hnd⟩
        exact hdisj _ hc (List.mem_cons_self _ _)
      · intro k hk
        rcases List.mem_cons.mp hk with rfl | hk
        · exact hx
        · exact fun hc => hdisj _ hk (List.mem_cons_of_mem _ hc)

theorem dedupGo_covers {seen : List (String × String)} {xs : List Repository}
    {r : Repository} (h : r ∈ xs) :
    repoKey r ∈ seen ∨ repoKey r ∈ (dedupGo seen xs).map repoKey := by
  induction xs generalizing seen with
  | nil => simp at h
  | cons x rest ih =>
    rcases List.mem_cons.mp h with rfl | h
    · by_cases hx : repoKey r ∈ seen
      · exact Or.inl hx
      · simp [dedupGo, if_neg hx]
    · by_cases hx : repoKey x ∈ seen
      · simpa only [dedupGo, if_pos hx] using ih h
      · simp only [dedupGo, if_neg hx, List.map_cons]
        rcases @ih (repoKey x :: seen) h with hs | hs
        · rcases List.mem_cons.mp hs with he | hs
          · exact Or.inr (by simp [he])
          · exact Or.inl hs
        · exact Or.inr (List.mem_cons_of_mem _ hs)

theorem dedupGo_sublist (seen : List (String × String)) (xs : List Repository) :
    List.Sublist (dedupGo seen xs) xs := by
  induction xs generalizing seen with
  | nil => simp [dedupGo]
  | cons x rest ih =>
    by_cases hx : repoKey x ∈ seen
    · simpa only [dedupGo, if_pos hx] using List.Sublist.cons x (ih seen)
    · simpa only [dedupGo, if_neg hx] using List.Sublist.cons₂ x (ih (repoKey x :: seen))

theorem dedupGo_find {seen : List (String × String)} {xs : List Repository}
    {r : Repository} (h : r ∈ dedupGo seen xs) :
    xs.find? (fun x => decide (repoKey x = repoKey r)) = some r := by
  induction xs generalizing seen with
  | nil => simp [dedupGo] at h
  | cons x rest ih =>
    by_cases hx : repoKey x ∈ seen
    · simp only [dedupGo, if_pos hx] at h
      have hne : repoKey x ≠ repoKey r := by
        intro he
        exact absurd (he ▸ hx) (dedupGo_mem h).2
      simpa [List.find?, hne] using ih h
    · simp only [dedupGo, if_neg hx] at h
      rcases List.mem_cons.mp h with rfl | h
      · simp [List.find?]
      · have hkey : repoKey r ∉ repoKey x :: seen := (dedupGo_mem h).2
        have hne : repoKey x ≠ repoKey r := by
          intro he
          exact hkey (he ▸ List.mem_cons_self _ _)
        simpa [List.find?, hne] using ih h

theorem dedupGo_idem (seen : List (String × String)) (xs : List Repository) :
    dedupGo seen (dedupGo seen xs) = dedupGo seen xs := by
  induction xs generalizing seen with
  | nil => simp [dedupGo]
  | cons x rest ih =>
    by_cases hx : repoKey x ∈ seen
    · simp only [dedupGo, if_pos hx]
      exact ih seen
    · simp only [dedupGo, if_neg hx]
      rw [ih (repoKey x :: seen)]

/-- Claim C6: `dedup` keeps exactly the first occurrence of each
`(owner, name)` identity in first-seen order — the output is a sublist
of the input with pairwise-distinct keys covering every input key, and
each kept record is the input's first record with its key (so a later
occurrence with a different `via` never replaces it) — and `dedup` is
idempotent. -/
theorem dedup_first_seen_idempotent (xs : List Repository) :
    List.Sublist (dedup xs) xs ∧
    ((dedup xs).map repoKey).Nodup ∧
    (∀ r ∈ xs, repoKey r ∈ (dedup xs).map repoKey) ∧
    (∀ r ∈ dedup xs, xs.find? (fun x => decide (repoKey x = repoKey r)) = some r) ∧
    dedup (dedup xs) = dedup xs := by
  refine ⟨dedupGo_sublist [] xs, (dedupGo_keys [] xs).1, fun r hr => ?_,
    fun r hr => dedupGo_find hr, dedupGo_idem [] xs⟩
  rcases @dedupGo_covers [] xs r hr with hs | hs
  · simp at hs
  · exact hs

/-- Witness for C6 at a concrete list: the duplicate of `rA` (same
identity, different `via`) is dropped and the kept record is the first
occurrence. -/
theorem dedup_first_seen_idempotent_witness :
    repoKey rA2 ∈ (dedup [rA, rB, rA2]).map repoKey ∧
    [rA, rB, rA2].find? (fun x => decide (repoKey x = repoKey rA)) = some rA :=
  ⟨(dedup_first_seen_idempotent [rA, rB, rA2]).2.2.1 rA2 (by decide),
   (dedup_first_seen_idempotent [rA, rB, rA2]).2.2.2.1 rA (by decide)⟩

theorem processRepos_honest (total : Nat) (repos : List Repository)
    (i : Nat) (s : StarState) :
    processRepos honestApi total repos i s =
      ((honestRun total repos i s).1, (honestRun total repos i s).2.1,
       Except.ok ((honestRun total repos i s).2.2.1,
         (honestRun total repos i s).2.2.2)) := by
  induction repos generalizing i s with
  | nil => rfl
  | cons r rest ih =>
    have hv : honestApi.viewer_has_starred s r.owner r.name =
        Except.ok (decide ((r.owner, r.name) ∈ s), s) := rfl
    have hst : honestApi.star s r.owner r.name =
        Except.ok ((r.owner, r.name) :: s) := rfl
    by_cases h : (r.owner, r.name) ∈ s
    · simp [processRepos, hv, decide_eq_true h, honestRun, if_pos h, ih, consResult]
    · simp [processRepos, hv, hst, decide_eq_false h, honestRun, if_neg h, ih, consResult]

theorem honestRun_state_mono (total : Nat) (repos : List Repository)
    (i : Nat) (s : StarState) :
    (∀ k ∈ s, k ∈ (honestRun total repos i s).2.2.2) ∧
    (∀ r ∈ repos, repoKey r ∈ (honestRun total repos i s).2.2.2) := by
  induction repos generalizing i s with
  | nil => simp [honestRun]
  | cons r rest ih =>
    by_cases h : (r.owner, r.name) ∈ s
    · simp only [honestRun, if_pos h]
      obtain ⟨hmono, hcov⟩ := ih (i + 1) s
      refine ⟨hmono, fun x hx => ?_⟩
      rcases List.mem_cons.mp hx with rfl | hx
      · exact hmono _ h
      · exact hcov _ hx
    · simp only [honestRun, if_neg h]
      obtain ⟨hmono, hcov⟩ := ih (i + 1) ((r.owner, r.name) :: s)
      refine ⟨fun k hk => hmono _ (List.mem_cons_of_mem _ hk), fun x hx => ?_⟩
      rcases List.mem_cons.mp hx with rfl | hx
      · exact hmono _ (List.mem_cons_self _ _)
      · exact hcov _ hx

theorem honestRun_all_starred (total : Nat) (repos : List Repository)
    (i : Nat) (s : StarState) (h : ∀ r ∈ repos, repoKey r ∈ s) :
    honestRun total repos i s =
      (repos.map fun r => ApiCall.viewer r.owner r.name,
       protocolEvents (repos.map fun r => ⟨r, true⟩) i total,
       repos.map fun r => ⟨r, true⟩, s) := by
  induction repos generalizing i with
  | nil => simp [honestRun, protocolEvents]
  | cons r rest ih =>
    have hr : (r.owner, r.name) ∈ s := h r (List.mem_cons_self _ _)
    simp only [honestRun, if_pos hr, List.map_cons, protocolEvents]
    rw [ih (i + 1) (fun x hx => h x (List.mem_cons_of_mem _ hx))]

theorem honestRun_repositories (total : Nat) (repos : List Repository)
    (i : Nat) (s : StarState) :
    (honestRun total repos i s).2.2.1.map (fun e => e.repository) = repos := by
  induction repos generalizing i s with
  | nil => simp [honestRun]
  | cons r rest ih =>
    by_cases h : (r.owner, r.name) ∈ s
    · simp only [honestRun, if_pos h, List.map_cons]
      rw [ih]
    · simp only [honestRun, if_neg h, List.map_cons]
      rw [ih]

theorem honestRun_queries (total : Nat) (repos : List Repository)
    (i : Nat) (s : StarState) :
    queryCalls (honestRun total repos i s).1 = repos.map repoKey := by
  induction repos generalizing i s with
  | nil => simp [honestRun, queryCalls]
  | cons r rest ih =>
    by_cases h : (r.owner, r.name) ∈ s
    · simp only [honestRun, if_pos h, queryCalls, List.map_cons]
      rw [ih]
      rfl
    · simp only [honestRun, if_neg h, queryCalls, List.map_cons]
      rw [ih]
      rfl

theorem queryCalls_map_viewer (l : List Repository) :
    queryCalls (l.map fun r => ApiCall.viewer r.owner r.name) = l.map repoKey := by
  induction l with
  | nil => rfl
  | cons r rest ih => simp [queryCalls, ih, repoKey]

theorem map_repository_mk_true (l : List Repository) :
    (l.map fun r => ({ repository := r, already_starred := true } :
        StarredRepository)).map (fun e => e.repository) = l := by
  induction l with
  | nil => rfl
  | cons x xs ih => simp [ih]

/-- Claim C1: Against a remote where each successful `star` makes
`viewer_has_starred` subsequently return `true`, reconciliation is
idempotent: if a run from state `s₀` succeeds with final state `s1` and
a second run over the same repository list is made from `s1`, then the
second run issues zero `star` calls, reports `already_starred = true`
for every entry, both runs' summaries list the same repositories, and
in both runs the `viewer_has_starred` query is performed exactly once
per unique repository, in order, never skipped. -/
theorem reconciliation_idempotent (repos : List Repository) (s₀ : StarState)
    (c1 c2 : List ApiCall) (e1 e2 : List Event) (sm1 sm2 : RunSummary)
    (s1 s2 : StarState)
    (h1 : runModel (Except.ok repos) honestApi s₀ = (c1, e1, Except.ok (sm1, s1)))
    (h2 : runModel (Except.ok repos) honestApi s1 = (c2, e2, Except.ok (sm2, s2))) :
    (∀ c ∈ c2, isStarCall c = false) ∧
    (∀ entry ∈ sm2.starred, entry.already_starred = true) ∧
    sm2.starred.map (fun e => e.repository) =
      sm1.starred.map (fun e => e.repository) ∧
    queryCalls c1 = (dedup repos).map repoKey ∧
    queryCalls c2 = (dedup repos).map repoKey := by
  simp only [runModel, processRepos_honest, Prod.mk.injEq, Except.ok.injEq,
    RunSummary.mk.injEq] at h1 h2
  obtain ⟨hc1, _, hsm1, hs1⟩ := h1
  obtain ⟨hc2, _, hsm2, hs2⟩ := h2
  have hall : ∀ r ∈ dedup repos, repoKey r ∈ s1 := by
    intro r hr
    rw [← hs1]
    exact (honestRun_state_mono (dedup repos).length (dedup repos) 1 s₀).2 r hr
  have hsecond := honestRun_all_starred (dedup repos).length (dedup repos) 1 s1 hall
  refine ⟨?_, ?_, ?_, ?_, ?_⟩
  · intro c hc
    rw [← hc2, hsecond] at hc
    obtain ⟨r, _, rfl⟩ := List.mem_map.mp hc
    rfl
  · intro entry hent
    rw [← hsm2, hsecond] at hent
    obtain ⟨r, _, rfl⟩ := List.mem_map.mp hent
    rfl
  · rw [← hsm2, ← hsm1, hsecond, honestRun_repositories]
    exact map_repository_mk_true (dedup repos)
  · rw [← hc1, honestRun_queries]
  · rw [← hc2, hsecond, queryCalls_map_viewer]

/-- Witness for C1: a two-repository list with an initially empty
remote; the first run stars both, the second stars nothing. -/
theorem reconciliation_idempotent_witness :
    (∀ c ∈ [ApiCall.viewer "a" "x", ApiCall.viewer "b" "y"], isStarCall c = false) ∧
    (∀ entry ∈ (RunSummary.mk [⟨rA, true⟩, ⟨rB, true⟩]).starred,
      entry.already_starred = true) ∧
    (RunSummary.mk [⟨rA, true⟩, ⟨rB, true⟩]).starred.map (fun e => e.repository) =
      (RunSummary.mk [⟨rA, false⟩, ⟨rB, false⟩]).starred.map (fun e => e.repository) ∧
    queryCalls [ApiCall.viewer "a" "x", ApiCall.star "a" "x",
      ApiCall.viewer "b" "y", ApiCall.star "b" "y"] = (dedup [rA, rB]).map repoKey ∧
    queryCalls [ApiCall.viewer "a" "x", ApiCall.viewer "b" "y"] =
      (dedup [rA, rB]).map repoKey :=
  reconciliation_idempotent [rA, rB] []
    [ApiCall.viewer "a" "x", ApiCall.star "a" "x",
      ApiCall.viewer "b" "y", ApiCall.star "b" "y"]
    [ApiCall.viewer "a" "x", ApiCall.viewer "b" "y"]
    [Event.start 2, Event.starred rA false 1 2, Event.starred rB false 2 2,
      Event.complete (RunSummary.mk [⟨rA, false⟩, ⟨rB, false⟩])]
    [Event.start 2, Event.starred rA true 1 2, Event.starred rB true 2 2,
      Event.complete (RunSummary.mk [⟨rA, true⟩, ⟨rB, true⟩])]
    (RunSummary.mk [⟨rA, false⟩, ⟨rB, false⟩])
    (RunSummary.mk [⟨rA, true⟩, ⟨rB, true⟩])
    [("b", "y"), ("a", "x")] [("b", "y"), ("a", "x")]
    (by rfl) (by rfl)

/-! ## C3 — dry-run no-mutation -/

theorem processRepos_dry (t : Nat) (repos : List Repository) (i : Nat)
    (s : StarState) (log : List ApiCall) :
    processRepos (maybeDryRun (traced honestApi) true) t repos i (s, log) =
      ((repos.map fun r => ApiCall.viewer r.owner r.name ::
          (if (r.owner, r.name) ∈ s then [] else [ApiCall.star r.owner r.name])).flatten,
       protocolEvents
         (repos.map fun r => ⟨r, decide ((r.owner, r.name) ∈ s)⟩) i t,
       Except.ok (repos.map fun r => ⟨r, decide ((r.owner, r.name) ∈ s)⟩,
         (s, log ++ repos.map fun r => ApiCall.viewer r.owner r.name))) := by
  induction repos generalizing i log with
  | nil => simp [processRepos, protocolEvents]
  | cons r rest ih =>
    have hv : (maybeDryRun (traced honestApi) true).viewer_has_starred
        (s, log) r.owner r.name =
        Except.ok (decide ((r.owner, r.name) ∈ s),
          (s, log ++ [ApiCall.viewer r.owner r.name])) := rfl
    have hstar : (maybeDryRun (traced honestApi) true).star
        (s, log ++ [ApiCall.viewer r.owner r.name]) r.owner r.name =
        Except.ok (s, log ++ [ApiCall.viewer r.owner r.name]) := rfl
    by_cases h : (r.owner, r.name) ∈ s
    · simp [processRepos, hv, decide_eq_true h, if_pos h, ih, consResult,
        protocolEvents, decide_eq_true h]
    · simp [processRepos, hv, hstar, decide_eq_false h, if_neg h, ih, consResult,
        protocolEvents, decide_eq_false h]

/-- Claim C3: With `dry_run = true` (the `MaybeDryRunClient` wrapper), a
run over any repository list and any remote starred-state succeeds
without issuing a single `star` call to the underlying GitHub API — the
inner API's call log is exactly one `viewer_has_starred` query per
unique repository, in order — the remote state is untouched, and the
summary records `already_starred = false` for the entries that would
have been starred and `true` for those already starred. -/
theorem dry_run_no_mutation (repos : List Repository) (s₀ : StarState) :
    runModel (Except.ok repos) (maybeDryRun (traced honestApi) true) (s₀, []) =
      (((dedup repos).map fun r => ApiCall.viewer r.owner r.name ::
          (if (r.owner, r.name) ∈ s₀ then [] else [ApiCall.star r.owner r.name])).flatten,
       Event.start (dedup repos).length ::
         protocolEvents
           ((dedup repos).map fun r => ⟨r, decide ((r.owner, r.name) ∈ s₀)⟩)
           1 (dedup repos).length ++
         [Event.complete { starred :=
            (dedup repos).map fun r => ⟨r, decide ((r.owner, r.name) ∈ s₀)⟩ }],
       Except.ok
         ({ starred :=
             (dedup repos).map fun r => ⟨r, decide ((r.owner, r.name) ∈ s₀)⟩ },
          (s₀, (dedup repos).map fun r => ApiCall.viewer r.owner r.name))) ∧
    (∀ c ∈ (dedup repos).map fun r => ApiCall.viewer r.owner r.name,
      isStarCall c = false) ∧
    queryCalls ((dedup repos).map fun r => ApiCall.viewer r.owner r.name) =
      (dedup repos).map repoKey := by
  refine ⟨?_, ?_, queryCalls_map_viewer (dedup repos)⟩
  · simp [runModel, processRepos_dry]
  · intro c hc
    obtain ⟨r, _, rfl⟩ := List.mem_map.mp hc
    rfl

/-! ## C7 — observer event protocol -/

theorem protocolEvents_all_starred (l : List StarredRepository) (i t : Nat) :
    ∀ ev ∈ protocolEvents l i t, isStarredEvent ev = true := by
  induction l generalizing i with
  | nil => simp [protocolEvents]
  | cons e rest ih =>
    intro ev hev
    rcases List.mem_cons.mp hev with rfl | hev
    · rfl
    · exact ih (i + 1) ev hev

theorem protocolEvents_no_complete (l : List StarredRepository) (i t : Nat) :
    ∀ ev ∈ protocolEvents l i t, isCompleteEvent ev = false := by
  induction l generalizing i with
  | nil => simp [protocolEvents]
  | cons e rest ih =>
    intro ev hev
    rcases List.mem_cons.mp hev with rfl | hev
    · rfl
    · exact ih (i + 1) ev hev

theorem processRepos_ok {σ : Type} (api : Api σ) (t : Nat) :
    ∀ (repos : List Repository) (i : Nat) (s : σ) (calls : List ApiCall)
      (evs : List Event) (starred : List StarredRepository) (sF : σ),
      processRepos api t repos i s = (calls, evs, Except.ok (starred, sF)) →
      starred.map (fun e => e.repository) = repos ∧
        evs = protocolEvents starred i t := by
  intro repos
  induction repos with
  | nil =>
    intro i s calls evs starred sF h
    simp only [processRepos, Prod.mk.injEq, Except.ok.injEq] at h
    obtain ⟨-, hevs, hstarred, -⟩ := h
    rw [← hevs, ← hstarred]
    simp [protocolEvents]
  | cons r rest ih =>
    intro i s calls evs starred sF h
    cases hv : api.viewer_has_starred s r.owner r.name with
    | error e => simp [processRepos, hv] at h
    | ok p =>
      obtain ⟨already, s1⟩ := p
      cases already with
      | true =>
        rcases htail : processRepos api t rest (i + 1) s1 with ⟨tc, te, tres⟩
        cases tres with
        | error e => simp [processRepos, hv, htail, consResult] at h
        | ok pr =>
          obtain ⟨tl, ts⟩ := pr
          obtain ⟨h1, h2⟩ := ih (i + 1) s1 tc te tl ts htail
          simp only [processRepos, hv, htail, consResult, if_true,
            Prod.mk.injEq, Except.ok.injEq] at h
          try obtain ⟨hc, hevs, hstarred, hsf⟩ := h
          try rw [← hevs, ← hstarred]
          simp [protocolEvents, h1, h2]
      | false =>
        cases hstar : api.star s1 r.owner r.name with
        | error e => simp [processRepos, hv, hstar] at h
        | ok s2 =>
          rcases htail : processRepos api t rest (i + 1) s2 with ⟨tc, te, tres⟩
          cases tres with
          | error e => simp [processRepos, hv, hstar, htail, consResult] at h
          | ok pr =>
            obtain ⟨tl, ts⟩ := pr
            obtain ⟨h1, h2⟩ := ih (i + 1) s2 tc te tl ts htail
            simp only [processRepos, hv, hstar, htail, consResult,
              Prod.mk.injEq, Except.ok.injEq] at h
            try obtain ⟨hc, hevs, hstarred, hsf⟩ := h
            try rw [← hevs, ← hstarred]
            simp [protocolEvents, h1, h2]

/-- Claim C7: On every successful run the observer receives exactly one
`on_start` with the unique-repository total before any per-repository
event, then one `on_starred` per unique repository in deduplicated
order carrying the repository, its flag, its 1-based index and the
total (only `on_starred` events appear in that segment), and finally
exactly one `on_complete` carrying the summary whose entries match the
`on_starred` sequence in order. -/
theorem observer_event_protocol {σ : Type} (api : Api σ) (s : σ)
    (repos : List Repository) (calls : List ApiCall) (evs : List Event)
    (summary : RunSummary) (sF : σ)
    (h : runModel (Except.ok repos) api s = (calls, evs, Except.ok (summary, sF))) :
    evs = Event.start (dedup repos).length ::
        protocolEvents summary.starred 1 (dedup repos).length ++
        [Event.complete summary] ∧
    summary.starred.map (fun e => e.repository) = dedup repos ∧
    (∀ ev ∈ protocolEvents summary.starred 1 (dedup repos).length,
      isStarredEvent ev = true) := by
  rcases hp : processRepos api (dedup repos).length (dedup repos) 1 s
    with ⟨pc, pe, pres⟩
  cases pres with
  | error e =>
    simp only [runModel, hp] at h
    simp at h
  | ok pr =>
    obtain ⟨pl, ps⟩ := pr
    simp only [runModel, hp, Prod.mk.injEq, Except.ok.injEq] at h
    obtain ⟨-, hevs, hsm, -⟩ := h
    obtain ⟨h1, h2⟩ := processRepos_ok api (dedup repos).length (dedup repos)
      1 s pc pe pl ps hp
    refine ⟨?_, ?_, protocolEvents_all_starred _ _ _⟩
    · rw [← hevs, ← hsm, h2]
    · rw [← hsm]
      exact h1

/-- Witness for C7: a concrete successful run over two repositories. -/
theorem observer_event_protocol_witness :
    [Event.start 2, Event.starred rA false 1 2, Event.starred rB true 2 2,
        Event.complete { starred := [⟨rA, false⟩, ⟨rB, true⟩] }] =
      Event.start (dedup [rA, rB, rA2]).length ::
        protocolEvents (RunSummary.mk [⟨rA, false⟩, ⟨rB, true⟩]).starred 1
          (dedup [rA, rB, rA2]).length ++
        [Event.complete (RunSummary.mk [⟨rA, false⟩, ⟨rB, true⟩])] ∧
    (RunSummary.mk [⟨rA, false⟩, ⟨rB, true⟩]).starred.map
        (fun e => e.repository) = dedup [rA, rB, rA2] ∧
    (∀ ev ∈ protocolEvents (RunSummary.mk [⟨rA, false⟩, ⟨rB, true⟩]).starred 1
        (dedup [rA, rB, rA2]).length, isStarredEvent ev = true) :=
  observer_event_protocol honestApi [("b", "y")] [rA, rB, rA2]
    [ApiCall.viewer "a" "x", ApiCall.star "a" "x", ApiCall.viewer "b" "y"]
    [Event.start 2, Event.starred rA false 1 2, Event.starred rB true 2 2,
      Event.complete { starred := [⟨rA, false⟩, ⟨rB, true⟩] }]
    (RunSummary.mk [⟨rA, false⟩, ⟨rB, true⟩])
    [("a", "x"), ("b", "y")] (by rfl)

/-! ## C4 — fail-fast, no partial success -/

theorem processRepos_error {σ : Type} (api : Api σ) (t : Nat) :
    ∀ (repos : List Repository) (i : Nat) (s : σ) (calls : List ApiCall)
      (evs : List Event) (err : GitHubError),
      processRepos api t repos i s = (calls, evs, Except.error err) →
      ∃ k pfx, k < repos.length ∧ pfx.length = k ∧
        pfx.map (fun en => en.repository) = repos.take k ∧
        evs = protocolEvents pfx i t ∧
        (∀ c ∈ calls, callKey c ∈ (repos.take (k + 1)).map repoKey) := by
  intro repos
  induction repos with
  | nil =>
    intro i s calls evs err h
    simp [processRepos] at h
  | cons r rest ih =>
    intro i s calls evs err h
    cases hv : api.viewer_has_starred s r.owner r.name with
    | error e =>
      simp only [processRepos, hv, Prod.mk.injEq, Except.error.injEq] at h
      obtain ⟨hc, hevs, -⟩ := h
      refine ⟨0, [], by simp, rfl, by simp, by rw [← hevs]; rfl, ?_⟩
      intro c hc'
      rw [← hc] at hc'
      rcases List.mem_singleton.mp hc' with rfl
      simp [callKey, repoKey]
    | ok p =>
      obtain ⟨already, s1⟩ := p
      cases already with
      | true =>
        rcases htail : processRepos api t rest (i + 1) s1 with ⟨tc, te, tres⟩
        cases tres with
        | ok pr =>
          obtain ⟨tl, ts⟩ := pr
          simp [processRepos, hv, htail, consResult] at h
        | error e =>
          obtain ⟨k, pfx, hk, hlen, hmap, hevs', hcalls⟩ :=
            ih (i + 1) s1 tc te e htail
          simp only [processRepos, hv, htail, consResult, if_true,
            Prod.mk.injEq, Except.error.injEq] at h
          obtain ⟨hc, hevs, -⟩ := h
          refine ⟨k + 1, ⟨r, true⟩ :: pfx, by simp; omega, by simp [hlen], ?_, ?_, ?_⟩
          · simp [hmap]
          · rw [← hevs, hevs']
            rfl
          · intro c hc'
            rw [← hc] at hc'
            rcases List.mem_cons.mp hc' with rfl | hc'
            · simp [callKey, repoKey]
            · have := hcalls c hc'
              simp only [List.take, List.map_cons, List.mem_cons]
              exact Or.inr this
      | false =>
        cases hstar : api.star s1 r.owner r.name with
        | error e =>
          simp only [processRepos, hv, hstar, Prod.mk.injEq,
            Except.error.injEq] at h
          try obtain ⟨hc, hevs, -⟩ := h
          refine ⟨0, [], by simp, rfl, by simp, ?_, ?_⟩
          · try rw [← hevs]
            rfl
          · intro c hc'
            try rw [← hc] at hc'
            rcases List.mem_cons.mp hc' with rfl | hc'
            · simp [callKey, repoKey]
            · rcases List.mem_singleton.mp hc' with rfl
              simp [callKey, repoKey]
        | ok s2 =>
          rcases htail : processRepos api t rest (i + 1) s2 with ⟨tc, te, tres⟩
          cases tres with
          | ok pr =>
            obtain ⟨tl, ts⟩ := pr
            simp [processRepos, hv, hstar, htail, consResult] at h
          | error e =>
            obtain ⟨k, pfx, hk, hlen, hmap, hevs', hcalls⟩ :=
              ih (i + 1) s2 tc te _ htail
            simp only [processRepos, hv, hstar, htail, consResult,
              Prod.mk.injEq, Except.error.injEq] at h
            try obtain ⟨hc, hevs, -⟩ := h
            refine ⟨k + 1, ⟨r, false⟩ :: pfx, by simp; omega, by simp [hlen],
              ?_, ?_, ?_⟩
            · simp [hmap]
            · try rw [← hevs]
              rw [hevs']
              rfl
            · intro c hc'
              try rw [← hc] at hc'
              rcases List.mem_cons.mp hc' with rfl | hc'
              · simp [callKey, repoKey]
              · rcases List.mem_cons.mp hc' with rfl | hc'
                · simp [callKey, repoKey]
                · have hmem := hcalls c hc'
                  rw [List.take_succ_cons, List.map_cons]
                  exact List.mem_cons_of_mem _ hmem

/-- Claim C4: Fail-fast with no partial success: a discovery error makes
the whole run return that error with no API call issued and no observer
event emitted; and when a `viewer_has_starred` or `star` call fails,
the run returns that single error — no `RunSummary` is produced, no
`on_complete` is emitted, the events are `on_start` plus one
`on_starred` per fully-processed repository, and every API call issued
concerns one of the repositories up to and including the failing one. -/
theorem fail_fast_no_partial_success {σ : Type} (api : Api σ) :
    (∀ (e : DiscoveryError) (s : σ),
      runModel (Except.error e) api s = ([], [], Except.error (RunError.discovery e))) ∧
    (∀ (repos : List Repository) (s : σ) (calls : List ApiCall)
        (evs : List Event) (err : RunError),
      runModel (Except.ok repos) api s = (calls, evs, Except.error err) →
      ∃ ghErr, err = RunError.github ghErr ∧
        ∃ k pfx, k < (dedup repos).length ∧ pfx.length = k ∧
          pfx.map (fun en => en.repository) = (dedup repos).take k ∧
          evs = Event.start (dedup repos).length ::
            protocolEvents pfx 1 (dedup repos).length ∧
          (∀ c ∈ calls, callKey c ∈ ((dedup repos).take (k + 1)).map repoKey) ∧
          (∀ ev ∈ evs, isCompleteEvent ev = false)) := by
  constructor
  · intro e s
    rfl
  · intro repos s calls evs err h
    rcases hp : processRepos api (dedup repos).length (dedup repos) 1 s
      with ⟨pc, pe, pres⟩
    cases pres with
    | ok pr =>
      obtain ⟨pl, ps⟩ := pr
      simp only [runModel, hp] at h
      simp at h
    | error e =>
      simp only [runModel, hp, Prod.mk.injEq, Except.error.injEq,
        RunError.github.injEq] at h
      obtain ⟨hc, hevs, herr⟩ := h
      obtain ⟨k, pfx, hk, hlen, hmap, hevs', hcalls⟩ :=
        processRepos_error api (dedup repos).length (dedup repos) 1 s pc pe e hp
      refine ⟨e, by rw [← herr], k, pfx, hk, hlen, hmap, ?_, ?_, ?_⟩
      · rw [← hevs, hevs']
      · intro c hcm
        rw [← hc] at hcm
        exact hcalls c hcm
      · intro ev hev
        rw [← hevs] at hev
        rcases List.mem_cons.mp hev with rfl | hev
        · rfl
        · exact protocolEvents_no_complete pfx 1 (dedup repos).length ev
            (hevs' ▸ hev)

/-- Witness for C4: with two repositories and an API failing on the
first query, the run aborts after a single query with a single error,
no summary and no `on_complete`. -/
theorem fail_fast_no_partial_success_witness :
    ∃ ghErr, RunError.github (GitHubError.api 500 "boom") = RunError.github ghErr ∧
      ∃ k pfx, k < (dedup [rA, rB]).length ∧ pfx.length = k ∧
        pfx.map (fun en => en.repository) = (dedup [rA, rB]).take k ∧
        [Event.start 2] = Event.start (dedup [rA, rB]).length ::
          protocolEvents pfx 1 (dedup [rA, rB]).length ∧
        (∀ c ∈ [ApiCall.viewer "a" "x"],
          callKey c ∈ ((dedup [rA, rB]).take (k + 1)).map repoKey) ∧
        (∀ ev ∈ [Event.start 2], isCompleteEvent ev = false) :=
  (fail_fast_no_partial_success failingApi).2 [rA, rB] () [ApiCall.viewer "a" "x"]
    [Event.start 2] (RunError.github (GitHubError.api 500 "boom")) (by rfl)

/-! ## C5 / C10 — the discovery dispatcher -/

theorem joinAll_spawn (disc : Framework → Except DiscoveryError (List Repository)) :
    ∀ (fws : List Framework) (k : Nat),
      joinAll ((fws.enumFrom k).map fun p => (disc p.2).map fun rs => (p.1, rs)) =
        (joinAll (fws.map disc)).map fun l => l.enumFrom k := by
  intro fws
  induction fws with
  | nil => intro k; rfl
  | cons f rest ih =>
    intro k
    cases hd : disc f with
    | error e =>
      have hh : Except.map (fun rs => ((k : Nat), rs)) (disc f) =
          Except.error e := by rw [hd]; rfl
      simp only [List.enumFrom_cons, List.map_cons, hh, hd, joinAll, Except.map]
    | ok rs =>
      have hh : Except.map (fun rs => ((k : Nat), rs)) (disc f) =
          Except.ok (k, rs) := by rw [hd]; rfl
      simp only [List.enumFrom_cons, List.map_cons, hh, hd, joinAll]
      rw [ih (k + 1)]
      cases hj : joinAll (rest.map disc) with
      | error e => simp [Except.map]
      | ok l => simp [Except.map, List.enumFrom_cons]

theorem joinAll_ok_length {E α : Type} :
    ∀ (xs : List (Except E α)) (l : List α),
      joinAll xs = Except.ok l → l.length = xs.length := by
  intro xs
  induction xs with
  | nil =>
    intro l h
    simp only [joinAll, Except.ok.injEq] at h
    rw [← h]
    rfl
  | cons x rest ih =>
    intro l h
    cases x with
    | error e => simp [joinAll] at h
    | ok a =>
      cases hj : joinAll rest with
      | error e =>
        simp only [joinAll, hj, Except.map] at h
        cases h
      | ok l' =>
        simp only [joinAll, hj, Except.map, Except.ok.injEq] at h
        rw [← h]
        simp [ih l' hj]

theorem joinAll_first_error {E α : Type} (e : E) :
    ∀ (xs : List (Except E α)) (i : Nat),
      xs[i]? = some (Except.error e) →
      (∀ j, j < i → ∃ a, xs[j]? = some (Except.ok a)) →
      joinAll xs = Except.error e := by
  intro xs
  induction xs with
  | nil => intro i h _; simp at h
  | cons x rest ih =>
    intro i h hok
    cases i with
    | zero =>
      rw [List.getElem?_cons_zero, Option.some.injEq] at h
      subst h
      rfl
    | succ k =>
      obtain ⟨a, ha⟩ := hok 0 (Nat.succ_pos k)
      rw [List.getElem?_cons_zero, Option.some.injEq] at ha
      subst ha
      rw [List.getElem?_cons_succ] at h
      have htail := ih k h fun j hj => by
        obtain ⟨b, hb⟩ := hok (j + 1) (by omega)
        rw [List.getElem?_cons_succ] at hb
        exact ⟨b, hb⟩
      simp only [joinAll, htail, Except.map]

theorem foldl_set_length (ws : List (Nat × List Repository))
    (init : List (Option (List Repository))) :
    (ws.foldl (fun a p => a.set p.1 (some p.2)) init).length = init.length := by
  induction ws generalizing init with
  | nil => rfl
  | cons w rest ih => simp [List.foldl_cons, ih]

theorem foldl_set_getElem? (rsList : List (List Repository)) :
    ∀ (ws : List (Nat × List Repository)) (init : List (Option (List Repository))),
      init.length = rsList.length →
      (∀ p ∈ ws, rsList[p.1]? = some p.2) →
      ∀ i, (ws.foldl (fun a p => a.set p.1 (some p.2)) init)[i]? =
        if i ∈ ws.map Prod.fst then (rsList[i]?).map some else init[i]? := by
  intro ws
  induction ws with
  | nil =>
    intro init hlen hP i
    simp
  | cons w rest ih =>
    intro init hlen hP i
    obtain ⟨j, a⟩ := w
    have hja : rsList[j]? = some a := hP (j, a) (List.mem_cons_self _ _)
    have hjlt : j < rsList.length := by
      by_contra hc
      rw [List.getElem?_eq_none (by omega)] at hja
      cases hja
    have hrec := ih (init.set j (some a)) (by simp [hlen])
      (fun p hp => hP p (List.mem_cons_of_mem _ hp)) i
    rw [List.foldl_cons, hrec]
    by_cases hmem : i ∈ rest.map Prod.fst
    · rw [if_pos hmem, if_pos (by simp [hmem])]
    · rw [if_neg hmem]
      by_cases hij : i = j
      · subst hij
        rw [if_pos (by simp), List.getElem?_set_self (by omega), hja]
        rfl
      · rw [List.getElem?_set_ne (fun hc => hij hc.symm),
          if_neg (by simp [hij, hmem])]

theorem filterMap_id_map_some (l : List (List Repository)) :
    (l.map some).filterMap id = l := by
  induction l with
  | nil => rfl
  | cons x rest ih => simp [ih]

theorem fillOrdered_perm (rsList : List (List Repository)) (arrival : List Nat)
    (hperm : arrival.Perm (List.range rsList.length)) :
    fillOrdered rsList.length (arrival.filterMap fun j => rsList.enum[j]?) =
      rsList.map some := by
  have hP : ∀ p ∈ arrival.filterMap fun j => rsList.enum[j]?,
      rsList[p.1]? = some p.2 := by
    intro p hp
    obtain ⟨j, -, hpj⟩ := List.mem_filterMap.mp hp
    rw [List.getElem?_enum] at hpj
    cases hrs : rsList[j]? with
    | none => rw [hrs] at hpj; cases hpj
    | some b =>
      rw [hrs] at hpj
      simp only [Option.map_some', Option.some.injEq] at hpj
      rw [← hpj, hrs]
  have hcover : ∀ i, i < rsList.length →
      i ∈ (arrival.filterMap fun j => rsList.enum[j]?).map Prod.fst := by
    intro i hi
    have hia : i ∈ arrival := (hperm.mem_iff).mpr (List.mem_range.mpr hi)
    refine List.mem_map.mpr ⟨(i, rsList[i]), List.mem_filterMap.mpr ⟨i, hia, ?_⟩, rfl⟩
    rw [List.getElem?_enum, List.getElem?_eq_getElem hi]
    rfl
  apply List.ext_getElem?
  intro i
  unfold fillOrdered
  rw [foldl_set_getElem? rsList _ _ (by simp) hP i]
  by_cases hi : i < rsList.length
  · rw [if_pos (hcover i hi), List.getElem?_map]
  · have h1 : rsList[i]? = none := List.getElem?_eq_none (by omega)
    have h2 : (rsList.map some)[i]? = none :=
      List.getElem?_eq_none (by rw [List.length_map]; omega)
    have h3 : (List.replicate rsList.length
        (none : Option (List Repository)))[i]? = none :=
      List.getElem?_eq_none (by rw [List.length_replicate]; omega)
    rw [h2, h1]
    by_cases hmem : i ∈ ((arrival.filterMap fun j => rsList.enum[j]?).map Prod.fst)
    · rw [if_pos hmem]
      rfl
    · rw [if_neg hmem, h3]

/-- Claim C5: Dispatcher determinism: with zero frameworks the dispatch
returns the empty list without consulting any discoverer (the result
holds for every oracle `disc`); with one framework it returns exactly
that discoverer's result; and for any framework list, whatever the
completion order `arrival` of the concurrent tasks, the result equals
joining the per-framework results in the caller-supplied framework
order and concatenating them — in particular it is independent of
completion order. -/
theorem dispatcher_deterministic
    (disc : Framework → Except DiscoveryError (List Repository)) :
    (∀ arrival, discover_for_frameworks disc [] arrival = Except.ok []) ∧
    (∀ f arrival, discover_for_frameworks disc [f] arrival = disc f) ∧
    (∀ (fws : List Framework) (arrival : List Nat),
      arrival.Perm (List.range fws.length) →
      discover_for_frameworks disc fws arrival =
        (joinAll (fws.map disc)).map List.flatten) := by
  refine ⟨fun _ => rfl, fun _ _ => rfl, ?_⟩
  intro fws arrival hperm
  match fws with
  | [] => simp [discover_for_frameworks, joinAll, Except.map]
  | [f] =>
    cases hd : disc f with
    | error e => simp [discover_for_frameworks, joinAll, hd, Except.map]
    | ok rs => simp [discover_for_frameworks, joinAll, hd, Except.map]
  | f :: g :: rest =>
    have hdef : discover_for_frameworks disc (f :: g :: rest) arrival =
        (match joinAll (spawnResults disc (f :: g :: rest)) with
         | Except.error e => Except.error e
         | Except.ok pairs =>
           Except.ok (((fillOrdered (f :: g :: rest).length
             (arrival.filterMap fun j => pairs[j]?)).filterMap id).flatten)) := rfl
    have hspawn : joinAll (spawnResults disc (f :: g :: rest)) =
        (joinAll ((f :: g :: rest).map disc)).map fun l => l.enumFrom 0 :=
      joinAll_spawn disc (f :: g :: rest) 0
    cases hjoin : joinAll ((f :: g :: rest).map disc) with
    | error e =>
      rw [hdef, hspawn, hjoin]
      rfl
    | ok rsList =>
      have hlen : rsList.length = (f :: g :: rest).length := by
        have := joinAll_ok_length _ _ hjoin
        simpa using this
      have hfill := fillOrdered_perm rsList arrival (by rw [hlen]; exact hperm)
      rw [hdef, hspawn, hjoin]
      show Except.ok (((fillOrdered (f :: g :: rest).length
          (arrival.filterMap fun j => rsList.enum[j]?)).filterMap id).flatten) =
        Except.ok rsList.flatten
      rw [show ((f :: g :: rest).length) = rsList.length from hlen.symm, hfill,
        filterMap_id_map_some]

/-- Witness for C5: frameworks `[Node, Cargo]` with completion order
`[1, 0]` (the second task finishes first) still produce the
framework-order concatenation. -/
theorem dispatcher_deterministic_witness :
    discover_for_frameworks discAB [Framework.Node, Framework.Cargo] [1, 0] =
      (joinAll ([Framework.Node, Framework.Cargo].map discAB)).map List.flatten :=
  (dispatcher_deterministic discAB).2.2 [Framework.Node, Framework.Cargo] [1, 0]
    (by decide)

/-- Claim C10: First-error selection: the error returned by the dispatcher
is that of the failing framework earliest in the caller-supplied
framework order — the join walks the task handles in spawn order — and
this holds for every completion order `arrival`, so the returned error
is deterministic for a fixed input. -/
theorem dispatcher_first_error_by_order
    (disc : Framework → Except DiscoveryError (List Repository))
    (fws : List Framework) (arrival : List Nat) (i : Nat) (fi : Framework)
    (e : DiscoveryError) (hget : fws[i]? = some fi)
    (herr : disc fi = Except.error e)
    (hok : ∀ j fj, j < i → fws[j]? = some fj → ∃ rs, disc fj = Except.ok rs) :
    discover_for_frameworks disc fws arrival = Except.error e := by
  have hlt : i < fws.length := by
    by_contra hc
    rw [List.getElem?_eq_none (by omega)] at hget
    cases hget
  have hjoin : joinAll (fws.map disc) = Except.error e := by
    apply joinAll_first_error e (fws.map disc) i
    · rw [List.getElem?_map, hget, Option.map_some', herr]
    · intro j hj
      have hjlt : j < fws.length := by omega
      obtain ⟨rs, hrs⟩ := hok j fws[j] hj (List.getElem?_eq_getElem hjlt)
      exact ⟨rs, by rw [List.getElem?_map, List.getElem?_eq_getElem hjlt,
        Option.map_some', hrs]⟩
  match fws, hget, hjoin, hlt with
  | [f], hget, hjoin, hlt =>
    have : i = 0 := by simpa using Nat.lt_one_iff.mp (by simpa using hlt)
    subst this
    rw [List.getElem?_cons_zero, Option.some.injEq] at hget
    subst hget
    exact herr ▸ rfl
  | f :: g :: rest, hget, hjoin, hlt =>
    have hspawn : joinAll (spawnResults disc (f :: g :: rest)) =
        (joinAll ((f :: g :: rest).map disc)).map fun l => l.enumFrom 0 :=
      joinAll_spawn disc (f :: g :: rest) 0
    rw [hjoin] at hspawn
    simp [discover_for_frameworks, hspawn, Except.map]

/-- Witness for C10: with frameworks `[Cargo, Node]` where only Node
fails, and the failing task completing first (`arrival = [1, 0]`), the
dispatcher still reports Node's error. -/
theorem dispatcher_first_error_by_order_witness :
    discover_for_frameworks discErr [Framework.Cargo, Framework.Node] [1, 0] =
      Except.error (DiscoveryError.Node "read failed") :=
  dispatcher_first_error_by_order discErr [Framework.Cargo, Framework.Node]
    [1, 0] 1 Framework.Node (DiscoveryError.Node "read failed") (by rfl) (by rfl)
    (fun j fj hj hget => by
      interval_cases j
      exact ⟨[rB], by rw [show fj = Framework.Cargo from by simpa using hget.symm]; rfl⟩)

theorem ne_of_class {p : Char → Bool} {c x : Char}
    (h : p c = true) (hx : p x = false) : c ≠ x := by
  intro he
  rw [he, hx] at h
  cases h

theorem segChar_not_ws {c : Char} (h : segChar c = true) :
    c.isWhitespace = false := by
  have h1 : c ≠ ' ' := ne_of_class h (by decide)
  have h2 : c ≠ '\t' := ne_of_class h (by decide)
  have h3 : c ≠ '\r' := ne_of_class h (by decide)
  have h4 : c ≠ '\n' := ne_of_class h (by decide)
  simp [Char.isWhitespace, h1, h2, h3, h4]

theorem hostChar_not_ws {c : Char} (h : hostChar c = true) :
    c.isWhitespace = false := by
  have h1 : c ≠ ' ' := ne_of_class h (by decide)
  have h2 : c ≠ '\t' := ne_of_class h (by decide)
  have h3 : c ≠ '\r' := ne_of_class h (by decide)
  have h4 : c ≠ '\n' := ne_of_class h (by decide)
  simp [Char.isWhitespace, h1, h2, h3, h4]

theorem hostChar_toNat {c : Char} (h : hostChar c = true) :
    (97 ≤ c.toNat ∧ c.toNat ≤ 122) ∨ (48 ≤ c.toNat ∧ c.toNat ≤ 57) ∨
      c.toNat = 45 ∨ c.toNat = 46 := by
  simp only [hostChar, Bool.or_eq_true, Bool.and_eq_true, decide_eq_true_eq] at h
  rcases h with ((⟨h1, h2⟩ | ⟨h1, h2⟩) | hc) | hc
  · exact Or.inl ⟨h1, h2⟩
  · exact Or.inr (Or.inl ⟨h1, h2⟩)
  · subst hc
    exact Or.inr (Or.inr (Or.inl (by decide)))
  · subst hc
    exact Or.inr (Or.inr (Or.inr (by decide)))

theorem hostChar_toLower {c : Char} (h : hostChar c = true) :
    c.toLower = c := by
  unfold Char.toLower
  rw [if_neg]
  rintro ⟨h1, h2⟩
  rcases hostChar_toNat h with ⟨ha, hb⟩ | ⟨ha, hb⟩ | hc | hc <;> omega

theorem map_toLower_id {l : List Char} (h : ∀ c ∈ l, hostChar c = true) :
    l.map Char.toLower = l := by
  induction l with
  | nil => rfl
  | cons c cs ih =>
    rw [List.map_cons, hostChar_toLower (h c (List.mem_cons_self _ _)),
      ih fun x hx => h x (List.mem_cons_of_mem _ hx)]

/-! ### Generic list-scanning lemmas -/

theorem dropWhile_eq_self {p : Char → Bool} {l : List Char}
    (h : ∀ x, l.head? = some x → p x = false) : l.dropWhile p = l := by
  cases l with
  | nil => rfl
  | cons x xs => simp [List.dropWhile_cons, h x rfl]

theorem takeWhile_all {p : Char → Bool} :
    ∀ {l : List Char}, (∀ c ∈ l, p c = true) → l.takeWhile p = l
  | [], _ => rfl
  | c :: cs, h => by
    simp only [List.takeWhile_cons, h c (List.mem_cons_self _ _), if_true]
    rw [takeWhile_all fun x hx => h x (List.mem_cons_of_mem _ hx)]

theorem takeWhile_append_stop {p : Char → Bool} {y : Char} {ys : List Char}
    (hy : p y = false) :
    ∀ {xs : List Char}, (∀ c ∈ xs, p c = true) →
      (xs ++ y :: ys).takeWhile p = xs
  | [], _ => by simp [List.takeWhile_cons, hy]
  | c :: cs, h => by
    simp only [List.cons_append, List.takeWhile_cons,
      h c (List.mem_cons_self _ _), if_true]
    rw [takeWhile_append_stop hy fun x hx => h x (List.mem_cons_of_mem _ hx)]

theorem drop_append_cons (xs : List Char) (y : Char) (ys : List Char) :
    (xs ++ y :: ys).drop (xs.length + 1) = ys := by
  induction xs with
  | nil => rfl
  | cons c cs ih => simp [ih]

/-! ### Behaviour of the `&str` helpers on class-constrained shapes -/

theorem trimChars_eq_self {l : List Char}
    (h : ∀ c ∈ l, c.isWhitespace = false) : trimChars l = l := by
  unfold trimChars
  rw [dropWhile_eq_self fun x hx => h x (List.mem_of_mem_head? hx),
    dropWhile_eq_self fun x hx =>
      h x (List.mem_reverse.mp (List.mem_of_mem_head? hx)),
    List.reverse_reverse]

theorem trimSlashes_eq_self {l : List Char}
    (hhead : ∀ x, l.head? = some x → x ≠ '/')
    (hlast : ∀ x, l.getLast? = some x → x ≠ '/') : trimSlashes l = l := by
  unfold trimSlashes
  rw [dropWhile_eq_self fun x hx => decide_eq_false (hhead x hx),
    dropWhile_eq_self fun x hx => decide_eq_false
      (hlast x (by rw [← List.head?_reverse]; exact hx)),
    List.reverse_reverse]

theorem stripPre_of_append (p rest : List Char) :
    stripPre p (p ++ rest) = some rest := by
  induction p with
  | nil => rfl
  | cons c cs ih => simp [stripPre, ih]

theorem stripPre_some {p : List Char} :
    ∀ {l r : List Char}, stripPre p l = some r → l = p ++ r := by
  induction p with
  | nil =>
    intro l r h
    simp only [stripPre, Option.some.injEq] at h
    rw [h]
    rfl
  | cons c cs ih =>
    intro l r h
    cases l with
    | nil => cases h
    | cons x xs =>
      by_cases hcx : c = x
      · subst hcx
        simp only [stripPre, if_pos rfl] at h
        rw [ih h]
        rfl
      · simp [stripPre, hcx] at h

theorem splitOnSlash_no_slash :
    ∀ {l : List Char}, (∀ c ∈ l, c ≠ '/') → splitOnSlash l = [l]
  | [], _ => rfl
  | c :: cs, h => by
    have hc : ¬ (c = '/') := h c (List.mem_cons_self _ _)
    rw [splitOnSlash, if_neg hc,
      splitOnSlash_no_slash fun x hx => h x (List.mem_cons_of_mem _ hx)]

theorem splitOnSlash_append {xs : List Char} (rest : List Char)
    (h : ∀ c ∈ xs, c ≠ '/') :
    splitOnSlash (xs ++ '/' :: rest) = xs :: splitOnSlash rest := by
  induction xs with
  | nil => simp [splitOnSlash]
  | cons c cs ih =>
    have hc : ¬ (c = '/') := h c (List.mem_cons_self _ _)
    rw [List.cons_append, splitOnSlash, if_neg hc,
      ih fun x hx => h x (List.mem_cons_of_mem _ hx)]

theorem splitFirstColon_none {l : List Char} (h : ∀ c ∈ l, c ≠ ':') :
    splitFirstColon l = none := by
  unfold splitFirstColon
  rw [takeWhile_all fun c hc => decide_eq_true (h c hc)]
  simp

theorem splitFirstColon_append {xs : List Char} (rest : List Char)
    (h : ∀ c ∈ xs, c ≠ ':') :
    splitFirstColon (xs ++ ':' :: rest) = some (xs, rest) := by
  unfold splitFirstColon
  rw [takeWhile_append_stop (by decide) fun c hc => decide_eq_true (h c hc)]
  rw [if_neg (by simp)]
  rw [drop_append_cons]

theorem afterLastAt_no_at {l : List Char} (h : ∀ c ∈ l, c ≠ '@') :
    afterLastAt l = l := by
  unfold afterLastAt
  rw [takeWhile_all fun c hc =>
    decide_eq_true (h c (List.mem_reverse.mp hc)), List.reverse_reverse]

theorem getLast?_ends (pre : List Char) {suf : List Char} (h : suf ≠ []) :
    (pre ++ suf).getLast? = suf.getLast? := by
  rw [List.getLast?_append]
  cases hs : suf.getLast? with
  | none => exact absurd (List.getLast?_eq_none_iff.mp hs) h
  | some y => rfl

theorem isEmpty_false {l : List Char} (h : l ≠ []) : l.isEmpty = false :=
  List.isEmpty_eq_false.mpr h

/-- The URL parser model on a `scheme://host/…path` shape with a
class-constrained (already-lowercase) host. -/
theorem urlParse_special (schemeRaw host path : List Char)
    (hvs : validScheme schemeRaw = true)
    (hnc : ∀ c ∈ schemeRaw, c ≠ ':')
    (hhost : ∀ c ∈ host, hostChar c = true) :
    urlParse (schemeRaw ++ ':' :: '/' :: '/' :: (host ++ '/' :: path)) =
      some { scheme := schemeRaw.map Char.toLower, host := some host,
             pathSegments := some (splitOnSlash path) } := by
  have hsp : stripPre ['/', '/'] ('/' :: '/' :: (host ++ '/' :: path)) =
      some (host ++ '/' :: path) := rfl
  have hauth : (host ++ '/' :: path).takeWhile
      (fun c => c ≠ '/' && c ≠ '?' && c ≠ '#') = host := by
    apply takeWhile_append_stop (by decide)
    intro c hc
    have h1 : c ≠ '/' := ne_of_class (hhost c hc) (by decide)
    have h2 : c ≠ '?' := ne_of_class (hhost c hc) (by decide)
    have h3 : c ≠ '#' := ne_of_class (hhost c hc) (by decide)
    simp [h1, h2, h3]
  have hdrop : (host ++ '/' :: path).drop host.length = '/' :: path :=
    List.drop_left host ('/' :: path)
  have hat : afterLastAt host = host :=
    afterLastAt_no_at fun c hc => ne_of_class (hhost c hc) (by decide)
  have hcolon : host.takeWhile (fun c => c ≠ ':') = host :=
    takeWhile_all fun c hc =>
      decide_eq_true (ne_of_class (hhost c hc) (by decide))
  simp only [urlParse, splitFirstColon_append _ hnc, hvs, if_true, hsp, hauth,
    hdrop, hat, hcolon, map_toLower_id hhost]

theorem seg_not_ws {l : List Char} (h : ∀ c ∈ l, segChar c = true) :
    ∀ c ∈ l, c.isWhitespace = false :=
  fun c hc => segChar_not_ws (h c hc)

theorem host_not_ws {l : List Char} (h : ∀ c ∈ l, hostChar c = true) :
    ∀ c ∈ l, c.isWhitespace = false :=
  fun c hc => hostChar_not_ws (h c hc)

/-- Rejection of `https://<host>/<owner>/<repo>` for a host other than
`github.com`. -/
theorem parse_https_non_github (host owner repo : List Char)
    (hh : HostStr host) (ho : SimpleSeg owner) (hr : SimpleSeg repo)
    (hne : host ≠ "github.com".toList) :
    parse_github_repository ("https".toList ++ ':' :: '/' :: '/' ::
      (host ++ '/' :: (owner ++ '/' :: repo))) = none := by
  obtain ⟨hhn, hhc⟩ := hh
  obtain ⟨hon, hoc⟩ := ho
  obtain ⟨hrn, hrc⟩ := hr
  have hws : ∀ c ∈ "https".toList ++ ':' :: '/' :: '/' ::
      (host ++ '/' :: (owner ++ '/' :: repo)), c.isWhitespace = false := by
    intro c hc
    rcases List.mem_append.mp hc with h | h
    · exact (by decide : ∀ x ∈ "https".toList, Char.isWhitespace x = false) c h
    · rcases List.mem_cons.mp h with rfl | h
      · decide
      rcases List.mem_cons.mp h with rfl | h
      · decide
      rcases List.mem_cons.mp h with rfl | h
      · decide
      rcases List.mem_append.mp h with h | h
      · exact host_not_ws hhc c h
      rcases List.mem_cons.mp h with rfl | h
      · decide
      rcases List.mem_append.mp h with h | h
      · exact seg_not_ws hoc c h
      rcases List.mem_cons.mp h with rfl | h
      · decide
      exact seg_not_ws hrc c h
  have hurl := urlParse_special "https".toList host (owner ++ '/' :: repo)
    (by decide) (by decide) hhc
  simp only [parse_github_repository, trimChars_eq_self hws]
  rw [if_neg (by simp)]
  rw [show stripPre "github:".toList ("https".toList ++ ':' :: '/' :: '/' ::
    (host ++ '/' :: (owner ++ '/' :: repo))) = none from rfl]
  rw [show stripPre "git+".toList ("https".toList ++ ':' :: '/' :: '/' ::
    (host ++ '/' :: (owner ++ '/' :: repo))) = none from rfl]
  simp only [Option.getD_none, hurl]
  rw [if_neg (by decide)]
  rw [if_neg (by simpa using hne)]
  unfold parseSshFallback
  rw [show stripPre "git@github.com:".toList ("https".toList ++ ':' :: '/' :: '/' ::
    (host ++ '/' :: (owner ++ '/' :: repo))) = none from rfl]

/-- Rejection of `file://github.com/<owner>/<repo>`: the `file` scheme
is refused outright even with host `github.com`. -/
theorem parse_file_scheme (owner repo : List Char)
    (ho : SimpleSeg owner) (hr : SimpleSeg repo) :
    parse_github_repository ("file".toList ++ ':' :: '/' :: '/' ::
      ("github.com".toList ++ '/' :: (owner ++ '/' :: repo))) = none := by
  obtain ⟨hon, hoc⟩ := ho
  obtain ⟨hrn, hrc⟩ := hr
  have hws : ∀ c ∈ "file".toList ++ ':' :: '/' :: '/' ::
      ("github.com".toList ++ '/' :: (owner ++ '/' :: repo)),
      c.isWhitespace = false := by
    intro c hc
    rcases List.mem_append.mp hc with h | h
    · exact (by decide : ∀ x ∈ "file".toList, Char.isWhitespace x = false) c h
    · rcases List.mem_cons.mp h with rfl | h
      · decide
      rcases List.mem_cons.mp h with rfl | h
      · decide
      rcases List.mem_cons.mp h with rfl | h
      · decide
      rcases List.mem_append.mp h with h | h
      · exact (by decide : ∀ x ∈ "github.com".toList,
          Char.isWhitespace x = false) c h
      rcases List.mem_cons.mp h with rfl | h
      · decide
      rcases List.mem_append.mp h with h | h
      · exact seg_not_ws hoc c h
      rcases List.mem_cons.mp h with rfl | h
      · decide
      exact seg_not_ws hrc c h
  have hurl := urlParse_special "file".toList "github.com".toList
    (owner ++ '/' :: repo) (by decide) (by decide) (by decide)
  simp only [parse_github_repository, trimChars_eq_self hws]
  rw [if_neg (by simp)]
  rw [show stripPre "github:".toList ("file".toList ++ ':' :: '/' :: '/' ::
    ("github.com".toList ++ '/' :: (owner ++ '/' :: repo))) = none from rfl]
  rw [show stripPre "git+".toList ("file".toList ++ ':' :: '/' :: '/' ::
    ("github.com".toList ++ '/' :: (owner ++ '/' :: repo))) = none from rfl]
  simp only [Option.getD_none, hurl]
  rw [if_pos (by decide)]

theorem stripPre_none_of_lacks {p l : List Char} (x : Char) (hx : x ∈ p)
    (h : ∀ c ∈ l, c ≠ x) : stripPre p l = none := by
  cases hs : stripPre p l with
  | none => rfl
  | some r =>
    have hmem : x ∈ l := by
      rw [stripPre_some hs]
      exact List.mem_append.mpr (Or.inl hx)
    exact absurd rfl (h x hmem)

/-- Rejection of bare shorthand with three segments. -/
theorem parse_three_segments (a b c : List Char)
    (ha : SimpleSeg a) (hb : SimpleSeg b) (hc : SimpleSeg c) :
    parse_github_repository (a ++ '/' :: (b ++ '/' :: c)) = none := by
  obtain ⟨han, hac⟩ := ha
  obtain ⟨hbn, hbc⟩ := hb
  obtain ⟨hcn, hcc⟩ := hc
  obtain ⟨y, ys, rfl⟩ := List.exists_cons_of_ne_nil han
  have hchars : ∀ x ∈ (y :: ys) ++ '/' :: (b ++ '/' :: c),
      segChar x = true ∨ x = '/' := by
    intro x hx
    rcases List.mem_append.mp hx with h | h
    · exact Or.inl (hac x h)
    rcases List.mem_cons.mp h with rfl | h
    · exact Or.inr rfl
    rcases List.mem_append.mp h with h | h
    · exact Or.inl (hbc x h)
    rcases List.mem_cons.mp h with rfl | h
    · exact Or.inr rfl
    exact Or.inl (hcc x h)
  have hnc : ∀ x ∈ (y :: ys) ++ '/' :: (b ++ '/' :: c), x ≠ ':' := by
    intro x hx
    rcases hchars x hx with h | rfl
    · exact ne_of_class h (by decide)
    · decide
  have hplus : ∀ x ∈ (y :: ys) ++ '/' :: (b ++ '/' :: c), x ≠ '+' := by
    intro x hx
    rcases hchars x hx with h | rfl
    · exact ne_of_class h (by decide)
    · decide
  have hws : ∀ x ∈ (y :: ys) ++ '/' :: (b ++ '/' :: c),
      x.isWhitespace = false := by
    intro x hx
    rcases hchars x hx with h | rfl
    · exact segChar_not_ws h
    · decide
  have hlast : ∀ x, ((y :: ys) ++ '/' :: (b ++ '/' :: c)).getLast? = some x →
      x ≠ '/' := by
    intro x hx
    have h1 : ((y :: ys) ++ '/' :: (b ++ '/' :: c)).getLast? =
        (b ++ '/' :: c).getLast? := by
      rw [getLast?_ends _ (by simp)]
      exact getLast?_ends ['/'] (by simp)
    have h2 : (b ++ '/' :: c).getLast? = c.getLast? := by
      rw [getLast?_ends _ (by simp)]
      exact getLast?_ends ['/'] hcn
    rw [h1, h2] at hx
    exact ne_of_class (hcc x (List.mem_of_getLast?_eq_some hx)) (by decide)
  have htrimsl : trimSlashes ((y :: ys) ++ '/' :: (b ++ '/' :: c)) =
      (y :: ys) ++ '/' :: (b ++ '/' :: c) :=
    trimSlashes_eq_self
      (fun x hx => by
        rw [show ((y :: ys) ++ '/' :: (b ++ '/' :: c)).head? = some y from rfl,
          Option.some.injEq] at hx
        rw [← hx]
        exact ne_of_class (hac y (List.mem_cons_self _ _)) (by decide))
      hlast
  have hsplit : splitOnSlash ((y :: ys) ++ '/' :: (b ++ '/' :: c)) =
      (y :: ys) :: b :: [c] := by
    rw [splitOnSlash_append _ fun x hx => ne_of_class (hac x hx) (by decide),
      splitOnSlash_append _ fun x hx => ne_of_class (hbc x hx) (by decide),
      splitOnSlash_no_slash fun x hx => ne_of_class (hcc x hx) (by decide)]
  have hpor : parse_owner_repo ((y :: ys) ++ '/' :: (b ++ '/' :: c)) = none := by
    unfold parse_owner_repo
    rw [htrimsl, hsplit]
    show (if ((trimChars (y :: ys)).isEmpty || (trimChars b).isEmpty) = true
        then none
        else if [c] ≠ [] then none
        else build_repository (trimChars (y :: ys)) (trimChars b)) = none
    rw [trimChars_eq_self fun x hx => segChar_not_ws (hac x hx),
      trimChars_eq_self fun x hx => segChar_not_ws (hbc x hx)]
    rw [if_neg (by simp [isEmpty_false hbn])]
    rw [if_pos (by simp)]
  have hu : urlParse ((y :: ys) ++ '/' :: (b ++ '/' :: c)) = none := by
    unfold urlParse
    rw [splitFirstColon_none hnc]
  simp only [parse_github_repository, trimChars_eq_self hws]
  rw [if_neg (by simp)]
  rw [stripPre_none_of_lacks ':' (by decide) hnc]
  rw [stripPre_none_of_lacks '+' (by decide) hplus]
  simp only [Option.getD_none, hu, hpor]
  unfold parseSshFallback
  rw [stripPre_none_of_lacks ':' (by decide) hnc]

/-- Rejection of bare shorthand with a single segment. -/
theorem parse_one_segment (a : List Char) (ha : SimpleSeg a) :
    parse_github_repository a = none := by
  obtain ⟨han, hac⟩ := ha
  obtain ⟨y, ys, rfl⟩ := List.exists_cons_of_ne_nil han
  have hnc : ∀ x ∈ (y :: ys), x ≠ ':' :=
    fun x hx => ne_of_class (hac x hx) (by decide)
  have hplus : ∀ x ∈ (y :: ys), x ≠ '+' :=
    fun x hx => ne_of_class (hac x hx) (by decide)
  have hws : ∀ x ∈ (y :: ys), x.isWhitespace = false :=
    fun x hx => segChar_not_ws (hac x hx)
  have htrimsl : trimSlashes (y :: ys) = (y :: ys) :=
    trimSlashes_eq_self
      (fun x hx => by
        rw [show (y :: ys).head? = some y from rfl, Option.some.injEq] at hx
        rw [← hx]
        exact ne_of_class (hac y (List.mem_cons_self _ _)) (by decide))
      (fun x hx => ne_of_class (hac x (List.mem_of_getLast?_eq_some hx))
        (by decide))
  have hsplit : splitOnSlash (y :: ys) = [y :: ys] :=
    splitOnSlash_no_slash fun x hx => ne_of_class (hac x hx) (by decide)
  have hpor : parse_owner_repo (y :: ys) = none := by
    unfold parse_owner_repo
    rw [htrimsl, hsplit]
  have hu : urlParse (y :: ys) = none := by
    unfold urlParse
    rw [splitFirstColon_none hnc]
  simp only [parse_github_repository, trimChars_eq_self hws]
  rw [if_neg (by simp)]
  rw [stripPre_none_of_lacks ':' (by decide) hnc]
  rw [stripPre_none_of_lacks '+' (by decide) hplus]
  simp only [Option.getD_none, hu, hpor]
  unfold parseSshFallback
  rw [stripPre_none_of_lacks ':' (by decide) hnc]

/-- Rejection of shorthand with an empty middle segment (`a//b`):
the empty name is rejected. -/
theorem parse_empty_segment (a b : List Char)
    (ha : SimpleSeg a) (hb : SimpleSeg b) :
    parse_github_repository (a ++ '/' :: '/' :: b) = none := by
  obtain ⟨han, hac⟩ := ha
  obtain ⟨hbn, hbc⟩ := hb
  obtain ⟨y, ys, rfl⟩ := List.exists_cons_of_ne_nil han
  have hchars : ∀ x ∈ (y :: ys) ++ '/' :: '/' :: b,
      segChar x = true ∨ x = '/' := by
    intro x hx
    rcases List.mem_append.mp hx with h | h
    · exact Or.inl (hac x h)
    rcases List.mem_cons.mp h with rfl | h
    · exact Or.inr rfl
    rcases List.mem_cons.mp h with rfl | h
    · exact Or.inr rfl
    exact Or.inl (hbc x h)
  have hnc : ∀ x ∈ (y :: ys) ++ '/' :: '/' :: b, x ≠ ':' := by
    intro x hx
    rcases hchars x hx with h | rfl
    · exact ne_of_class h (by decide)
    · decide
  have hplus : ∀ x ∈ (y :: ys) ++ '/' :: '/' :: b, x ≠ '+' := by
    intro x hx
    rcases hchars x hx with h | rfl
    · exact ne_of_class h (by decide)
    · decide
  have hws : ∀ x ∈ (y :: ys) ++ '/' :: '/' :: b, x.isWhitespace = false := by
    intro x hx
    rcases hchars x hx with h | rfl
    · exact segChar_not_ws h
    · decide
  have hlast : ∀ x, ((y :: ys) ++ '/' :: '/' :: b).getLast? = some x →
      x ≠ '/' := by
    intro x hx
    have h1 : ((y :: ys) ++ '/' :: '/' :: b).getLast? = b.getLast? := by
      rw [getLast?_ends _ (by simp)]
      calc ('/' :: '/' :: b).getLast?
          = ('/' :: b).getLast? := getLast?_ends ['/'] (by simp)
        _ = b.getLast? := getLast?_ends ['/'] hbn
    rw [h1] at hx
    exact ne_of_class (hbc x (List.mem_of_getLast?_eq_some hx)) (by decide)
  have htrimsl : trimSlashes ((y :: ys) ++ '/' :: '/' :: b) =
      (y :: ys) ++ '/' :: '/' :: b :=
    trimSlashes_eq_self
      (fun x hx => by
        rw [show ((y :: ys) ++ '/' :: '/' :: b).head? = some y from rfl,
          Option.some.injEq] at hx
        rw [← hx]
        exact ne_of_class (hac y (List.mem_cons_self _ _)) (by decide))
      hlast
  have hsplit : splitOnSlash ((y :: ys) ++ '/' :: '/' :: b) =
      (y :: ys) :: [] :: [b] := by
    rw [splitOnSlash_append _ fun x hx => ne_of_class (hac x hx) (by decide)]
    rw [show splitOnSlash ('/' :: b) = [] :: splitOnSlash b from
      by rw [splitOnSlash, if_pos rfl]]
    rw [splitOnSlash_no_slash fun x hx => ne_of_class (hbc x hx) (by decide)]
  have hpor : parse_owner_repo ((y :: ys) ++ '/' :: '/' :: b) = none := by
    unfold parse_owner_repo
    rw [htrimsl, hsplit]
    show (if ((trimChars (y :: ys)).isEmpty || (trimChars []).isEmpty) = true
        then none
        else if [b] ≠ [] then none
        else build_repository (trimChars (y :: ys)) (trimChars [])) = none
    rw [if_pos (by simp [trimChars])]
  have hu : urlParse ((y :: ys) ++ '/' :: '/' :: b) = none := by
    unfold urlParse
    rw [splitFirstColon_none hnc]
  simp only [parse_github_repository, trimChars_eq_self hws]
  rw [if_neg (by simp)]
  rw [stripPre_none_of_lacks ':' (by decide) hnc]
  rw [stripPre_none_of_lacks '+' (by decide) hplus]
  simp only [Option.getD_none, hu, hpor]
  unfold parseSshFallback
  rw [stripPre_none_of_lacks ':' (by decide) hnc]

/-- Rejection of `a/.git`: the name is empty once the trailing `.git`
is stripped. -/
theorem parse_empty_name_after_git (a : List Char) (ha : SimpleSeg a) :
    parse_github_repository (a ++ '/' :: ".git".toList) = none := by
  obtain ⟨han, hac⟩ := ha
  obtain ⟨y, ys, rfl⟩ := List.exists_cons_of_ne_nil han
  have hchars : ∀ x ∈ (y :: ys) ++ '/' :: ".git".toList,
      segChar x = true ∨ x = '/' ∨ x ∈ ".git".toList := by
    intro x hx
    rcases List.mem_append.mp hx with h | h
    · exact Or.inl (hac x h)
    rcases List.mem_cons.mp h with rfl | h
    · exact Or.inr (Or.inl rfl)
    exact Or.inr (Or.inr h)
  have hnc : ∀ x ∈ (y :: ys) ++ '/' :: ".git".toList, x ≠ ':' := by
    intro x hx
    rcases hchars x hx with h | rfl | h
    · exact ne_of_class h (by decide)
    · decide
    · exact (by decide : ∀ z ∈ ".git".toList, z ≠ ':') x h
  have hplus : ∀ x ∈ (y :: ys) ++ '/' :: ".git".toList, x ≠ '+' := by
    intro x hx
    rcases hchars x hx with h | rfl | h
    · exact ne_of_class h (by decide)
    · decide
    · exact (by decide : ∀ z ∈ ".git".toList, z ≠ '+') x h
  have hws : ∀ x ∈ (y :: ys) ++ '/' :: ".git".toList,
      x.isWhitespace = false := by
    intro x hx
    rcases hchars x hx with h | rfl | h
    · exact segChar_not_ws h
    · decide
    · exact (by decide : ∀ z ∈ ".git".toList, Char.isWhitespace z = false) x h
  have hlast : ∀ x, ((y :: ys) ++ '/' :: ".git".toList).getLast? = some x →
      x ≠ '/' := by
    intro x hx
    have h1 : ((y :: ys) ++ '/' :: ".git".toList).getLast? =
        (".git".toList).getLast? := by
      rw [getLast?_ends _ (by simp)]
      exact getLast?_ends ['/'] (by decide)
    rw [h1] at hx
    rw [show (".git".toList).getLast? = some 't' from rfl,
      Option.some.injEq] at hx
    rw [← hx]
    decide
  have htrimsl : trimSlashes ((y :: ys) ++ '/' :: ".git".toList) =
      (y :: ys) ++ '/' :: ".git".toList :=
    trimSlashes_eq_self
      (fun x hx => by
        rw [show ((y :: ys) ++ '/' :: ".git".toList).head? = some y from rfl,
          Option.some.injEq] at hx
        rw [← hx]
        exact ne_of_class (hac y (List.mem_cons_self _ _)) (by decide))
      hlast
  have hsplit : splitOnSlash ((y :: ys) ++ '/' :: ".git".toList) =
      (y :: ys) :: [".git".toList] := by
    rw [splitOnSlash_append _ fun x hx => ne_of_class (hac x hx) (by decide)]
    rw [splitOnSlash_no_slash (by decide)]
  have hpor : parse_owner_repo ((y :: ys) ++ '/' :: ".git".toList) = none := by
    unfold parse_owner_repo
    rw [htrimsl, hsplit]
    show (if ((trimChars (y :: ys)).isEmpty ||
            (trimChars ".git".toList).isEmpty) = true
        then none
        else if ([] : List (List Char)) ≠ [] then none
        else build_repository (trimChars (y :: ys)) (trimChars ".git".toList)) =
      none
    rw [trimChars_eq_self fun x hx => segChar_not_ws (hac x hx)]
    rw [show trimChars ".git".toList = ".git".toList from by decide]
    rw [if_neg (by simp)]
    rw [if_neg (by simp)]
    rfl
  have hu : urlParse ((y :: ys) ++ '/' :: ".git".toList) = none := by
    unfold urlParse
    rw [splitFirstColon_none hnc]
  simp only [parse_github_repository, trimChars_eq_self hws]
  rw [if_neg (by simp)]
  rw [stripPre_none_of_lacks ':' (by decide) hnc]
  rw [stripPre_none_of_lacks '+' (by decide) hplus]
  simp only [Option.getD_none, hu, hpor]
  unfold parseSshFallback
  rw [stripPre_none_of_lacks ':' (by decide) hnc]

/-- Claim C8: Parser rejection: `parse_github_repository` yields no match
(`none`, not an error) for (1) well-formed URLs whose already-lowercase
host is not exactly `github.com`, (2) `file`-scheme URLs even with host
`github.com`, (3) bare shorthand with three slash-separated segments,
(4) bare shorthand with a single segment, (5) shorthand with an empty
middle segment, and (6) inputs whose name becomes empty after the
trailing `.git` is stripped — with owners, names and path segments over
the identifier character class and hosts over the host character
class. -/
theorem parser_rejection :
    (∀ host owner repo, HostStr host → SimpleSeg owner → SimpleSeg repo →
      host ≠ "github.com".toList →
      parse_github_repository ("https".toList ++ ':' :: '/' :: '/' ::
        (host ++ '/' :: (owner ++ '/' :: repo))) = none) ∧
    (∀ owner repo, SimpleSeg owner → SimpleSeg repo →
      parse_github_repository ("file".toList ++ ':' :: '/' :: '/' ::
        ("github.com".toList ++ '/' :: (owner ++ '/' :: repo))) = none) ∧
    (∀ a b c, SimpleSeg a → SimpleSeg b → SimpleSeg c →
      parse_github_repository (a ++ '/' :: (b ++ '/' :: c)) = none) ∧
    (∀ a, SimpleSeg a → parse_github_repository a = none) ∧
    (∀ a b, SimpleSeg a → SimpleSeg b →
      parse_github_repository (a ++ '/' :: '/' :: b) = none) ∧
    (∀ a, SimpleSeg a →
      parse_github_repository (a ++ '/' :: ".git".toList) = none) :=
  ⟨parse_https_non_github, parse_file_scheme, parse_three_segments,
   parse_one_segment, parse_empty_segment, parse_empty_name_after_git⟩

/-- Witness for C8 at the spec's own example and concrete shorthands:
`https://example.com/owner/repo`, `file://github.com/owner/repo`,
`a/b/c`, `owner`, `a//b` and `owner/.git` all yield no match. -/
theorem parser_rejection_witness :
    parse_github_repository ("https".toList ++ ':' :: '/' :: '/' ::
      ("example.com".toList ++ '/' ::
        ("owner".toList ++ '/' :: "repo".toList))) = none ∧
    parse_github_repository ("file".toList ++ ':' :: '/' :: '/' ::
      ("github.com".toList ++ '/' ::
        ("owner".toList ++ '/' :: "repo".toList))) = none ∧
    parse_github_repository ("a".toList ++ '/' ::
      ("b".toList ++ '/' :: "c".toList)) = none ∧
    parse_github_repository "owner".toList = none ∧
    parse_github_repository ("a".toList ++ '/' :: '/' :: "b".toList) = none ∧
    parse_github_repository ("owner".toList ++ '/' :: ".git".toList) = none :=
  ⟨parser_rejection.1 _ _ _ ⟨by decide, by decide⟩ ⟨by decide, by decide⟩
      ⟨by decide, by decide⟩ (by decide),
   parser_rejection.2.1 _ _ ⟨by decide, by decide⟩ ⟨by decide, by decide⟩,
   parser_rejection.2.2.1 _ _ _ ⟨by decide, by decide⟩ ⟨by decide, by decide⟩
      ⟨by decide, by decide⟩,
   parser_rejection.2.2.2.1 _ ⟨by decide, by decide⟩,
   parser_rejection.2.2.2.2.1 _ _ ⟨by decide, by decide⟩ ⟨by decide, by decide⟩,
   parser_rejection.2.2.2.2.2 _ ⟨by decide, by decide⟩⟩

/-- Claim C2, failing input: the spec lists `git@github.com:owner/repo.git`
as a supported form yielding `Repository{owner, repo}`.  In the code the
`owner/repo`-shorthand fallback (`src/discovery.rs` line 285) fires
before the dedicated `git@github.com:` branch (line 289): the input
splits on its single `/` into the two non-empty parts
`git@github.com:owner` and `repo.git`, so `parse_owner_repo` succeeds
and the SSH branch is unreachable for exactly the canonical SSH syntax.
Evaluating the parser at the SSH form shows the round trip fails: the
owner comes back as `git@github.com:owner`, not `owner`, and the url is
not the canonical one. -/
theorem ssh_form_misparsed :
    parse_github_repository "git@github.com:owner/repo.git".toList =
      some { owner := "git@github.com:owner", name := "repo",
             url := "https://github.com/git@github.com:owner/repo",
             via := none } ∧
    parse_github_repository "git@github.com:owner/repo.git".toList ≠
      some { owner := "owner", name := "repo",
             url := "https://github.com/owner/repo", via := none } := by
  exact ⟨by decide, by decide⟩

end ThanksStars
